import Mathlib

/-!
Verification development for the document-reconstruction core of
`pdf-splitter-mcp` (`src/pdf-processor.ts`, class `PDFProcessor`).

Texts are modelled as `List Char` (one entry per character).  The JavaScript
string operations used by the source (`split`, `trim`, `indexOf`, `includes`,
`toLowerCase`, `substring`) are reimplemented below on `List Char` with the
same observable behaviour, and the regular expressions appearing literally in
the source (`/^(#+)\s+(.+)$/`, `/^#+\s+(.+)$/`, `/^#+\s/`) are translated to
explicit matching functions with JavaScript semantics (greedy `#+`, greedy
`\s+` with backtracking, `.` not matching line terminators, `$` anchoring at
the end of the string).
-/

namespace PdfSplit

/-- JavaScript `\s` character class (WhiteSpace ∪ LineTerminator), as used by
`RegExp` and `String.prototype.trim`. -/
def jsWs (c : Char) : Bool :=
  c = ' ' || c = '\t' || c = '\n' || c = '\x0b' || c = '\x0c' || c = '\r' ||
  c = ' ' || c = ' ' ||
  (' ' ≤ c && c ≤ ' ') ||
  c = ' ' || c = ' ' || c = ' ' || c = ' ' ||
  c = '　' || c = '﻿'

/-- JavaScript line terminators (the characters `.` does not match). -/
def jsTerm (c : Char) : Bool :=
  c = '\n' || c = '\r' || c = ' ' || c = ' '

/-- `String.prototype.toLowerCase`, restricted to the simple per-character
case mapping (sufficient for the ASCII texts of the claims). -/
def toLowerL (s : List Char) : List Char := s.map Char.toLower

/-- `String.prototype.trim`: drop leading whitespace. -/
def dropLeadWs (s : List Char) : List Char := s.dropWhile jsWs

/-- `String.prototype.trim`: drop trailing whitespace. -/
def dropTrailWs (s : List Char) : List Char :=
  (s.reverse.dropWhile jsWs).reverse

/-- `String.prototype.trim` (JS whitespace set on both ends). -/
def jsTrim (s : List Char) : List Char := dropTrailWs (dropLeadWs s)

/-- `String.prototype.split` with a single-character separator,
e.g. `markdown.split('\n')`.  JS yields `[""]` on the empty string and keeps
empty fields, which this definition reproduces. -/
def splitCh (sep : Char) : List Char → List (List Char)
  | [] => [[]]
  | c :: rest =>
    if c = sep then
      [] :: splitCh sep rest
    else
      match splitCh sep rest with
      | [] => [[c]]
      | f :: fs => (c :: f) :: fs

/-- First index `i ≥ 0` at which `pat` occurs in `s`
(`String.prototype.indexOf` restricted to search-from-0). -/
def idxOfSeq (pat : List Char) : List Char → Option Nat
  | [] => if pat.isPrefixOf ([] : List Char) then some 0 else none
  | c :: t =>
    if pat.isPrefixOf (c :: t) then some 0
    else (idxOfSeq pat t).map (· + 1)

/-- `String.prototype.indexOf(pat, from)`. -/
def idxOfFrom (pat s : List Char) (start : Nat) : Option Nat :=
  (idxOfSeq pat (s.drop start)).map (· + start)

/-- `String.prototype.includes` (used by the bidirectional fuzzy title
match in `extractSection`). -/
def jsIncludes (s pat : List Char) : Bool :=
  (List.range (s.length + 1)).any fun i => pat.isPrefixOf (s.drop i)

/-- Number of positions at which `pat` occurs in `s` (used to state
"appears exactly once"). -/
def countOccur (s pat : List Char) : Nat :=
  (List.range (s.length + 1)).countP fun i => pat.isPrefixOf (s.drop i)

theorem idxOfSeq_bound (pat : List Char) :
    ∀ (s : List Char) (i : Nat), idxOfSeq pat s = some i →
      i + pat.length ≤ s.length := by
  intro s
  induction s with
  | nil =>
    intro i h
    unfold idxOfSeq at h
    split at h
    · rename_i hp
      have := List.IsPrefix.length_le (List.isPrefixOf_iff_prefix.mp hp)
      simp_all
    · exact absurd h (by simp)
  | cons c t ih =>
    intro i h
    unfold idxOfSeq at h
    split at h
    · rename_i hp
      have := List.IsPrefix.length_le (List.isPrefixOf_iff_prefix.mp hp)
      cases h
      simpa using this
    · rcases Option.map_eq_some'.mp h with ⟨j, hj, rfl⟩
      have := ih j hj
      simp only [List.length_cons]
      omega

/-- Left-to-right scan implementing `content.split('\n\n')`: `acc` holds the
(reversed) characters of the current field; at each occurrence of the
separator the field is closed. -/
def splitParsAux : List Char → List Char → List (List Char)
  | [], acc => [acc.reverse]
  | [c], acc => [(c :: acc).reverse]
  | c1 :: c2 :: rest, acc =>
    if c1 = '\n' ∧ c2 = '\n' then acc.reverse :: splitParsAux rest []
    else splitParsAux (c2 :: rest) (c1 :: acc)

/-- `content.split('\n\n')` — paragraph splitting used by the paginator
(leftmost, non-overlapping separator occurrences, empty fields kept). -/
def splitPars (s : List Char) : List (List Char) := splitParsAux s []

/-- Join a list of fields with separator `"\n\n"`
(`Array.prototype.join('\n\n')`). -/
def joinPars : List (List Char) → List Char
  | [] => []
  | [x] => x
  | x :: y :: rest => x ++ '\n' :: '\n' :: joinPars (y :: rest)

/-- Join a list of fields with separator `'\n'`
(`Array.prototype.join('\n')`). -/
def joinCh (sep : Char) : List (List Char) → List Char
  | [] => []
  | [x] => x
  | x :: y :: rest => x ++ sep :: joinCh sep (y :: rest)

/-- Backtracking step of `\s+` in `/^(#+)\s+(.+)$/`: try the whitespace run
lengths `j+1, j, …, 1` in order and return the first capture `(.+)` that is
nonempty and free of line terminators. -/
def wsBack (rest : List Char) : Nat → Option (List Char)
  | 0 => none
  | j + 1 =>
    let t := rest.drop (j + 1)
    if t ≠ [] ∧ t.all (fun c => !jsTerm c) then some t
    else wsBack rest j

/-- JS regex `line.match(/^(#+)\s+(.+)$/)`: returns `(level, title)`
(`headingMatch[1].length`, `headingMatch[2]`) on a match.  `#+` greedily
takes the maximal run of `#`; `\s+` greedily takes the maximal whitespace run
and backtracks (from the right) until `(.+)$` — one or more non-terminator
characters reaching the end — succeeds. -/
def matchHeading (line : List Char) : Option (Nat × List Char) :=
  let hashes := line.takeWhile (· = '#')
  if hashes.length = 0 then none
  else
    let rest := line.drop hashes.length
    (wsBack rest (rest.takeWhile jsWs).length).map fun t => (hashes.length, t)

/-- JS regex test `paragraph.match(/^#+\s/)` used by the paginator's
heading-lookahead rule. -/
def isHeadingPara (p : List Char) : Bool :=
  let k := (p.takeWhile (· = '#')).length
  match k, p.drop k with
  | 0, _ => false
  | _ + 1, c :: _ => jsWs c
  | _ + 1, [] => false

/-- `OutlineItem` of the source: `title`, optional 1-based `page`, `level`,
`children` (`undefined`/`[]` are both modelled as `[]`, which the source
treats identically via `item.children && item.children.length > 0`). -/
structure OutlineItem where
  title : List Char
  page : Option Nat := none
  level : Nat := 0
  children : List OutlineItem := []

/-- `FlatSection` of `convertToMarkdown`. -/
structure FlatSec where
  title : List Char
  level : Nat
  startPage : Nat
  endPage : Nat
deriving DecidableEq, Repr

/-- JS truthiness of `item.page` (`undefined` and `0` are falsy). -/
def truthyPage : Option Nat → Option Nat
  | some 0 => none
  | some (p + 1) => some (p + 1)
  | none => none

/-- `flattenOutline` closure of `convertToMarkdown` (the captured `pages`
array enters only through `pages.length`, passed here as `numPages`; the
`parentLevel` parameter of the source is dead and omitted).  For an item with
truthy `page`: `endPage = nextItem?.page ? nextItem.page - 1 : pages.length`
where `nextItem` is the next sibling; children are flattened and appended
right after the item, in document order. -/
def flattenOutline (numPages : Nat) : List OutlineItem → List FlatSec
  | [] => []
  | item :: rest =>
    (match truthyPage item.page with
     | some p =>
       let endPage :=
         match rest with
         | next :: _ =>
           match truthyPage next.page with
           | some np => np - 1
           | none => numPages
         | [] => numPages
       [⟨item.title, item.level, p, endPage⟩]
     | none => []) ++
    (if item.children.length ≠ 0 then flattenOutline numPages item.children
     else []) ++
    flattenOutline numPages rest
  termination_by items => sizeOf items
  decreasing_by
    · cases item
      simp only [OutlineItem.mk.sizeOf_spec, List.cons.sizeOf_spec]
      omega
    · simp only [List.cons.sizeOf_spec]
      omega

/-- `sections.sort((a, b) => a.startPage - b.startPage)`: JS `Array.sort` is
stable and orders by `startPage` ascending; the stable insertion sort below
computes the same (unique) stably-sorted permutation. -/
def sortSections (l : List FlatSec) : List FlatSec :=
  List.insertionSort (fun a b : FlatSec => a.startPage ≤ b.startPage) l

/-- One emission step of the body synthesis: either a heading line or a
reference to a 1-based page index. -/
inductive MdChunk where
  | heading (level : Nat) (title : List Char)
  | pageRef (p : Nat)
deriving DecidableEq, Repr

/-- Orphan-prologue/gap emission:
`if (section.startPage > lastEndPage + 1) for (p = lastEndPage + 1; p < startPage; p++)`. -/
def gapChunks (lastEnd startPage : Nat) : List MdChunk :=
  if startPage > lastEnd + 1 then
    (List.range' (lastEnd + 1) (startPage - 1 - lastEnd)).map MdChunk.pageRef
  else []

/-- Per-section emission: the heading line, then
`for (p = startPage; p <= endPage; p++)`. -/
def secChunks (s : FlatSec) : List MdChunk :=
  MdChunk.heading s.level s.title ::
    (List.range' s.startPage (s.endPage + 1 - s.startPage)).map MdChunk.pageRef

/-- The main emission loop of `convertToMarkdown` over the sorted sections,
threading `lastEndPage` (initially 0). -/
def emitLoop : List FlatSec → Nat → List MdChunk
  | [], _ => []
  | s :: rest, lastEnd =>
    gapChunks lastEnd s.startPage ++ secChunks s ++ emitLoop rest s.endPage

/-- Final value of the `lastEndPage` variable after the emission loop. -/
def lastEndOf : List FlatSec → Nat → Nat
  | [], le => le
  | s :: rest, _ => lastEndOf rest s.endPage

/-- Trailing emission:
`if (lastEndPage < pages.length) for (p = lastEndPage + 1; p <= pages.length; p++)`. -/
def trailChunks (numPages lastEnd : Nat) : List MdChunk :=
  if lastEnd < numPages then
    (List.range' (lastEnd + 1) (numPages - lastEnd)).map MdChunk.pageRef
  else []

/-- Complete emission sequence of `convertToMarkdown` for a sorted section
list. -/
def emitChunks (numPages : Nat) (sections : List FlatSec) : List MdChunk :=
  emitLoop sections 0 ++ trailChunks numPages (lastEndOf sections 0)

/-- Text appended to `markdown` for one chunk: headings are
`'#'.repeat(level + 1) + ' ' + title + '\n\n'`; a page is emitted followed by
`'\n\n'` iff `pages[p - 1]?.trim()` is truthy (nonempty). -/
def renderChunk (pages : List (List Char)) : MdChunk → List Char
  | MdChunk.heading lvl title =>
    List.replicate (lvl + 1) '#' ++ ' ' :: (title ++ ['\n', '\n'])
  | MdChunk.pageRef p =>
    let t := pages.getD (p - 1) []
    if jsTrim t ≠ [] then t ++ ['\n', '\n'] else []

/-- `convertToMarkdown(pages, outline)`: without a (nonempty) outline, the
pages joined by `'\n\n'`; otherwise the flattened, stably sorted sections are
emitted (prologue pages, per-section heading + pages, trailing pages) and the
result is trimmed. -/
def convertToMarkdown (pages : List (List Char))
    (outline : Option (List OutlineItem)) : List Char :=
  match outline with
  | none => joinPars pages
  | some [] => joinPars pages
  | some items =>
    let sections := sortSections (flattenOutline pages.length items)
    jsTrim (((emitChunks pages.length sections).map (renderChunk pages)).flatten)

/-- The paragraph-accumulation loop of `paginateContent`.  `cur` is
`currentPage` (initially empty); the three `if` branches of the source are:
start a fresh page, append within budget, or close the page and start a
fresh one.  Each is followed by the heading-lookahead
`if (isHeading && nextParagraph && currentPage.length + nextParagraph.length
+ 2 <= charsPerPage) { currentPage += '\n\n' + nextParagraph; i++ }`, here
inlined per branch (for the last paragraph `nextParagraph` is `undefined`
and the lookahead is skipped; after the loop `currentPage` is pushed iff
nonempty). -/
def pagLoop (B : Nat) : List (List Char) → List Char → List (List Char)
  | [], cur => if cur.length = 0 then [] else [cur]
  | [para], cur =>
    if cur.length = 0 then
      if para.length = 0 then [] else [para]
    else if cur.length + para.length + 2 ≤ B then
      [cur ++ '\n' :: '\n' :: para]
    else
      cur :: (if para.length = 0 then [] else [para])
  | para :: next :: rest, cur =>
    if cur.length = 0 then
      if isHeadingPara para ∧ next.length ≠ 0 ∧
          para.length + next.length + 2 ≤ B then
        pagLoop B rest (para ++ '\n' :: '\n' :: next)
      else pagLoop B (next :: rest) para
    else if cur.length + para.length + 2 ≤ B then
      if isHeadingPara para ∧ next.length ≠ 0 ∧
          (cur ++ '\n' :: '\n' :: para).length + next.length + 2 ≤ B then
        pagLoop B rest ((cur ++ '\n' :: '\n' :: para) ++ '\n' :: '\n' :: next)
      else pagLoop B (next :: rest) (cur ++ '\n' :: '\n' :: para)
    else
      cur :: (if isHeadingPara para ∧ next.length ≠ 0 ∧
          para.length + next.length + 2 ≤ B then
        pagLoop B rest (para ++ '\n' :: '\n' :: next)
      else pagLoop B (next :: rest) para)

/-- `paginateContent(content, charsPerPage)`. -/
def paginateContent (content : List Char) (charsPerPage : Nat) :
    List (List Char) :=
  if content.length ≤ charsPerPage then [content]
  else pagLoop charsPerPage (splitPars content) []

/-- Structured failures of the section/search operations. -/
inductive PdfError where
  | sectionNotFound (title : List Char) (suggestions : List (List Char))
  | invalidRange (page total : Nat)
deriving DecidableEq, Repr

/-- `SectionPage` result of `extractSection` (`sec` models the `section`
field, whose name is reserved in Lean). -/
structure SectionPageM where
  page : Nat
  totalPages : Nat
  content : List Char
  sec : List Char
deriving DecidableEq, Repr

/-- The single scanning loop of `extractSection` over the body's lines:
state is `(sectionStart, sectionLevel, matchedTitle)` (`none` while
`sectionStart === -1`).  The first heading whose lower-cased trimmed title
passes the bidirectional `includes` test against the normalized query is
recorded; afterwards the first heading with `level <= sectionLevel` breaks
the loop.  Returns the final state and `sectionEnd` (the break index, or the
number of lines). -/
def scanSection (nq : List Char) : List (List Char) → Nat →
    Option (Nat × Nat × List Char) → Option (Nat × Nat × List Char) × Nat
  | [], i, st => (st, i)
  | line :: rest, i, st =>
    match matchHeading line with
    | some (lvl, cap) =>
      match st with
      | none =>
        let t := jsTrim (toLowerL cap)
        if jsIncludes t nq || jsIncludes nq t then
          scanSection nq rest (i + 1) (some (i, lvl, cap))
        else
          scanSection nq rest (i + 1) none
      | some (_, slvl, _) =>
        if lvl ≤ slvl then (st, i) else scanSection nq rest (i + 1) st
    | none => scanSection nq rest (i + 1) st

/-- `findSimilarSections`: the first 5 heading titles of the body in
document order (the query argument of the source is unused). -/
def findSimilarSections (markdown : List Char) : List (List Char) :=
  ((splitCh '\n' markdown).filterMap
    (fun line => (matchHeading line).map (·.2))).take 5

/-- `extractSection(pdfId, sectionTitle, page = 1, charsPerPage = 4000)`
after the registry lookup, acting on the stored body `markdown`. -/
def extractSectionBody (markdown sectionTitle : List Char) (page : Nat := 1)
    (charsPerPage : Nat := 4000) : Except PdfError SectionPageM :=
  let nq := jsTrim (toLowerL sectionTitle)
  let lines := splitCh '\n' markdown
  match scanSection nq lines 0 none with
  | (none, _) =>
    Except.error (PdfError.sectionNotFound sectionTitle
      (findSimilarSections markdown))
  | (some (s0, _, cap), e0) =>
    let fullContent := jsTrim (joinCh '\n' ((lines.drop s0).take (e0 - s0)))
    let pages := paginateContent fullContent charsPerPage
    if page < 1 ∨ page > pages.length then
      Except.error (PdfError.invalidRange page pages.length)
    else
      Except.ok ⟨page, pages.length, pages.getD (page - 1) [], cap⟩

/-- `findSectionForPosition` closure of `searchPDF`: split the text before
the match into lines and scan backward for the nearest heading; its captured
title is the attribution, else the sentinel `"Document Start"`. -/
def findSectionForPosition (markdown : List Char) (position : Nat) :
    List Char :=
  let lines := splitCh '\n' (markdown.take position)
  match lines.reverse.findSome? (fun l => (matchHeading l).map (·.2)) with
  | some t => t
  | none => "Document Start".data

/-- One search match: matched text, trimmed context snippet and attributed
section title (`sec` models the `section` field). -/
structure MatchEntry where
  text : List Char
  context : List Char
  sec : List Char
deriving DecidableEq, Repr

/-- JS truthiness of `maxResults` in `if (maxResults && totalMatches >=
maxResults)`: `undefined` and `0` are falsy, so they disable the limit. -/
def truthyLimit : Option Nat → Bool
  | none => false
  | some 0 => false
  | some (_ + 1) => true

/-- Match record built by the literal-search loop at position `pos`:
`text = markdown.substring(pos, pos + query.length)`, context clamped to
`[max(0, pos - ctx), min(len, pos + query.length + ctx))` and trimmed,
section attributed via `findSectionForPosition`. -/
def mkLitEntry (markdown query : List Char) (contextChars pos : Nat) :
    MatchEntry :=
  let contextStart := pos - contextChars
  let contextEnd := min markdown.length (pos + query.length + contextChars)
  { text := (markdown.drop pos).take query.length
    context := jsTrim ((markdown.drop contextStart).take (contextEnd - contextStart))
    sec := findSectionForPosition markdown pos }

/-- The literal-search `while ((position = markdownText.indexOf(searchText,
position)) !== -1)` loop of `searchPDF`, with explicit fuel (the source loop
does not terminate on an empty query without a truthy limit, which fuel
exhaustion models as `none`).  The limit check sits after the find, before
the record is appended; the position then advances by `query.length`. -/
def scanLitAux (markdown query : List Char) (caseSensitive : Bool)
    (maxResults : Option Nat) (contextChars : Nat) :
    Nat → Nat → Nat → Option (List MatchEntry)
  | 0, _, _ => none
  | fuel + 1, pos, total =>
    match idxOfFrom (if caseSensitive then query else toLowerL query)
        (if caseSensitive then markdown else toLowerL markdown) pos with
    | none => some []
    | some i =>
      if truthyLimit maxResults ∧ maxResults.getD 0 ≤ total then some []
      else
        (scanLitAux markdown query caseSensitive maxResults contextChars fuel
          (i + query.length) (total + 1)).map
          (mkLitEntry markdown query contextChars i :: ·)

/-- Literal-path match collection of `searchPDF`, with enough fuel for any
nonempty query. -/
def searchLiteral (markdown query : List Char) (caseSensitive : Bool)
    (maxResults : Option Nat) (contextChars : Nat) : Option (List MatchEntry) :=
  scanLitAux markdown query caseSensitive maxResults contextChars
    (markdown.length + 1) 0 0

/-- One step of the `groupedBySection` insertion-ordered map update:
append the match to the section's list, or append a fresh singleton group. -/
def groupIns (groups : List (List Char × List MatchEntry)) (sec : List Char)
    (m : MatchEntry) : List (List Char × List MatchEntry) :=
  match groups with
  | [] => [(sec, [m])]
  | (k, ms) :: rest =>
    if k = sec then (k, ms ++ [m]) :: rest
    else (k, ms) :: groupIns rest sec m

/-- Grouping of the collected matches by attributed section, in first-seen
order (`if (matches.length === 0) return []`, then a `Map` keyed by section). -/
def groupBySection (ms : List MatchEntry) :
    List (List Char × List MatchEntry) :=
  if ms.length = 0 then []
  else ms.foldl (fun gs m => groupIns gs m.sec m) []

/-- The grouped literal-search results of `searchPDF` (each group renders as
`{page: 0, section, matches}`; the constant `page: 0` field is omitted). -/
def searchPDFLit (markdown query : List Char) (caseSensitive : Bool)
    (maxResults : Option Nat) (contextChars : Nat) :
    Option (List (List Char × List MatchEntry)) :=
  (searchLiteral markdown query caseSensitive maxResults contextChars).map
    groupBySection

/-- Contract of JavaScript `RegExp.prototype.exec` with the `g` flag on the
fixed subject `markdown`: called with `lastIndex = li` it either fails or
reports a match at an index `i ≥ li` fitting inside the subject. -/
def ExecSpec (markdown : List Char) (exec : Nat → Option (Nat × List Char)) :
    Prop :=
  ∀ li i mt, exec li = some (i, mt) → li ≤ i ∧ i + mt.length ≤ markdown.length

/-- Match record built by the regex-search loop for a match `mt` at index
`i`. -/
def mkRegexEntry (markdown : List Char) (contextChars i : Nat)
    (mt : List Char) : MatchEntry :=
  let contextStart := i - contextChars
  let contextEnd := min markdown.length (i + mt.length + contextChars)
  { text := mt
    context := jsTrim ((markdown.drop contextStart).take (contextEnd - contextStart))
    sec := findSectionForPosition markdown i }

/-- The regex `while ((match = regexPattern.exec(pdf.markdown)) !== null)`
loop of `searchPDF`, abstracted over the engine via `exec` and with explicit
fuel.  After a match at `i` of length `|mt|`, `exec` leaves
`lastIndex = i + |mt|`; on a zero-width match (`match.index ===
regexPattern.lastIndex`) the source force-advances `lastIndex` by one. -/
def regexScanAux (markdown : List Char)
    (exec : Nat → Option (Nat × List Char)) (maxResults : Option Nat)
    (contextChars : Nat) : Nat → Nat → Nat → Option (List MatchEntry)
  | 0, _, _ => none
  | fuel + 1, lastIndex, total =>
    match exec lastIndex with
    | none => some []
    | some (i, mt) =>
      if truthyLimit maxResults ∧ maxResults.getD 0 ≤ total then some []
      else
        let li := i + mt.length
        let li' := if i = li then li + 1 else li
        (regexScanAux markdown exec maxResults contextChars fuel li'
          (total + 1)).map (mkRegexEntry markdown contextChars i mt :: ·)

/-- Regex-path match collection of `searchPDF`: the scan loop with enough
fuel for any engine satisfying the `exec` contract (C8 proves `length + 2`
iterations always complete). -/
def searchRegex (markdown : List Char)
    (exec : Nat → Option (Nat × List Char)) (maxResults : Option Nat)
    (contextChars : Nat) : Option (List MatchEntry) :=
  regexScanAux markdown exec maxResults contextChars (markdown.length + 2) 0 0

/-- The grouped regex-search results of `searchPDF` (same grouping as the
literal path). -/
def searchPDFRegex (markdown : List Char)
    (exec : Nat → Option (Nat × List Char)) (maxResults : Option Nat)
    (contextChars : Nat) : Option (List (List Char × List MatchEntry)) :=
  (searchRegex markdown exec maxResults contextChars).map groupBySection

/-- Configuration for the ambient path library (`path.normalize`,
`path.sep`, `new URL(...).pathname`), which the identifier assigner treats
as an external collaborator. -/
structure PathCfg where
  normalize : List Char → List Char
  sep : Char
  urlPath : List Char → Option (List Char)

/-- `filePath.startsWith('http://') || filePath.startsWith('https://')`. -/
def isUrlPath (p : List Char) : Bool :=
  "http://".data.isPrefixOf p || "https://".data.isPrefixOf p

/-- Normalization applied to each registry entry when building
`existingPaths` (URLs kept as-is, file paths through `path.normalize`). -/
def epNormalize (cfg : PathCfg) (p : List Char) : List Char :=
  if isUrlPath p then p else cfg.normalize p

/-- First-match association lookup (`Map.prototype.get`; keys are unique by
`Map` construction). -/
def lookupId {α : Type} : List (List Char × α) → List Char → Option α
  | [], _ => none
  | (k', v) :: rest, k => if k' = k then some v else lookupId rest k

/-- Path splitting of `generateUniqueId`: returns `(parts, normalizedPath)`.
URLs split their `pathname` on `'/'` (falling back to the raw string when
URL parsing throws); file paths are normalized and split on `path.sep`;
empty segments are dropped. -/
def partsOf (cfg : PathCfg) (filePath : List Char) :
    List (List Char) × List Char :=
  if isUrlPath filePath then
    match cfg.urlPath filePath with
    | some pathname =>
      ((splitCh '/' pathname).filter (fun p => p.length ≠ 0), filePath)
    | none =>
      ((splitCh '/' filePath).filter (fun p => p.length ≠ 0), filePath)
  else
    let np := cfg.normalize filePath
    ((splitCh cfg.sep np).filter (fun p => p.length ≠ 0), np)

/-- The join separator of `generateUniqueId` (`'/'` for URLs, `path.sep`
otherwise). -/
def sepOf (cfg : PathCfg) (filePath : List Char) : Char :=
  if isUrlPath filePath then '/' else cfg.sep

/-- Candidate id from the last `i` path segments:
`parts.slice(-i).join(separator)`. -/
def candAt (sep : Char) (parts : List (List Char)) (i : Nat) : List Char :=
  joinCh sep (parts.drop (parts.length - i))

/-- One iteration of the candidate loop of `generateUniqueId` (`ep` is the
`existingPaths` lookup): an unassigned candidate, or one already mapped to
this very normalized path, is accepted (`some`); a candidate taken by a
different path is rejected (`none`), and the loop moves on. -/
def genCand (ep : List Char → Option (List Char)) (np : List Char)
    (sep : Char) (parts : List (List Char)) (i : Nat) : Option (List Char) :=
  match ep (candAt sep parts i) with
  | none => some (candAt sep parts i)
  | some p => if p = np then some (candAt sep parts i) else none

/-- `generateUniqueId(filePath)` against the current registry `reg`
(`this.loadedPDFs` as an insertion-ordered `(id, path)` association list):
zero segments fall back to `"unknown.pdf"`; the bare final segment is reused
when it already maps to this normalized path; otherwise the first acceptable
suffix candidate (`i = 1..parts.length`) wins, and the full join is the
final fallback. -/
def generateUniqueId (cfg : PathCfg) (reg : List (List Char × List Char))
    (filePath : List Char) : List Char :=
  if (partsOf cfg filePath).1.length = 0 then "unknown.pdf".data
  else if lookupId (reg.map (fun e => (e.1, epNormalize cfg e.2)))
      ((partsOf cfg filePath).1.getD ((partsOf cfg filePath).1.length - 1) [])
      = some (partsOf cfg filePath).2 then
    (partsOf cfg filePath).1.getD ((partsOf cfg filePath).1.length - 1) []
  else
    match (List.range' 1 (partsOf cfg filePath).1.length).findSome?
        (genCand
          (fun k => lookupId (reg.map (fun e => (e.1, epNormalize cfg e.2))) k)
          (partsOf cfg filePath).2 (sepOf cfg filePath)
          (partsOf cfg filePath).1) with
    | some c => c
    | none => joinCh (sepOf cfg filePath) (partsOf cfg filePath).1

/-- `Map.prototype.set`: replace the value at an existing key in place, else
append a fresh entry. -/
def mapSet (reg : List (List Char × List Char)) (k v : List Char) :
    List (List Char × List Char) :=
  match reg with
  | [] => [(k, v)]
  | (k', v') :: rest =>
    if k' = k then (k, v) :: rest else (k', v') :: mapSet rest k v

/-- Registry effect of `loadPDF(filePath)`: derive the id from the current
registry, then `this.loadedPDFs.set(id, {id, path: filePath, …})`.  Returns
the id and the updated registry. -/
def loadReg (cfg : PathCfg) (reg : List (List Char × List Char))
    (filePath : List Char) : List Char × List (List Char × List Char) :=
  let id := generateUniqueId cfg reg filePath
  (id, mapSet reg id filePath)

/-- Upper bound of the page range covered by the emission loop from
`lastEnd = le` on. -/
def emitReach : List FlatSec → Nat → Nat
  | [], le => le
  | s :: rest, le =>
    max (max (max le (s.startPage - 1)) s.endPage) (emitReach rest s.endPage)

/-- Spec-level description of one node's contribution (the amended claim
C3): a node with a truthy target page yields one section whose `endPage` is
the **next sibling's** resolved page minus 1 when that sibling exists and
its page is truthy, and the document's last page otherwise; a node without a
truthy page yields nothing. -/
def sectionOf (numPages : Nat) (item : OutlineItem) (next? : Option OutlineItem) :
    Option FlatSec :=
  match truthyPage item.page with
  | none => none
  | some p =>
    some ⟨item.title, item.level, p,
      match next? with
      | some next =>
        match truthyPage next.page with
        | some np => np - 1
        | none => numPages
      | none => numPages⟩

/-- Modelled from the amended claim C3's words: per-node contribution via
`sectionOf` (next-sibling rule), children always traversed and appended
right after the node, document order preserved. -/
def flattenSiblingSpec (numPages : Nat) : List OutlineItem → List FlatSec
  | [] => []
  | item :: rest =>
    (sectionOf numPages item rest.head?).toList ++
    flattenSiblingSpec numPages item.children ++
    flattenSiblingSpec numPages rest
  termination_by items => sizeOf items
  decreasing_by
    · cases item
      simp only [OutlineItem.mk.sizeOf_spec, List.cons.sizeOf_spec]
      omega
    · simp only [List.cons.sizeOf_spec]
      omega

/-! ### Shared lemmas about the text primitives -/

theorem splitParsAux_ne_nil : ∀ (s acc : List Char), splitParsAux s acc ≠ [] := by
  intro s acc
  induction s, acc using splitParsAux.induct with
  | case1 acc => simp [splitParsAux]
  | case2 c acc => simp [splitParsAux]
  | case3 c1 c2 rest acc h ih => simp [splitParsAux, h]
  | case4 c1 c2 rest acc h ih => simpa [splitParsAux, h] using ih

theorem splitPars_ne_nil (s : List Char) : splitPars s ≠ [] :=
  splitParsAux_ne_nil s []

theorem joinPars_cons (a : List Char) (l : List (List Char)) (h : l ≠ []) :
    joinPars (a :: l) = a ++ '\n' :: '\n' :: joinPars l := by
  cases l with
  | nil => exact absurd rfl h
  | cons b l' => rfl

theorem joinPars_splitParsAux :
    ∀ (s acc : List Char), joinPars (splitParsAux s acc) = acc.reverse ++ s := by
  intro s acc
  induction s, acc using splitParsAux.induct with
  | case1 acc => simp [splitParsAux, joinPars]
  | case2 c acc => simp [splitParsAux, joinPars]
  | case3 c1 c2 rest acc h ih =>
    obtain ⟨rfl, rfl⟩ := h
    rw [splitParsAux, if_pos ⟨rfl, rfl⟩,
      joinPars_cons _ _ (splitParsAux_ne_nil _ _), ih]
    simp
  | case4 c1 c2 rest acc h ih =>
    rw [splitParsAux, if_neg h, ih]
    simp

/-- Joining the paragraphs back with the original separator recovers the
text. -/
theorem joinPars_splitPars (s : List Char) : joinPars (splitPars s) = s := by
  simpa using joinPars_splitParsAux s []

theorem joinPars_append_sep (a b : List Char) (l : List (List Char)) :
    joinPars ((a ++ '\n' :: '\n' :: b) :: l) = a ++ '\n' :: '\n' :: joinPars (b :: l) := by
  cases l with
  | nil => simp [joinPars]
  | cons c l' =>
    show (a ++ '\n' :: '\n' :: b) ++ '\n' :: '\n' :: joinPars (c :: l')
      = a ++ '\n' :: '\n' :: (b ++ '\n' :: '\n' :: joinPars (c :: l'))
    simp

theorem dropTrailWs_pre (s : List Char) : dropTrailWs s <+: s := by
  have h : (dropTrailWs s).reverse <:+ s.reverse := by
    unfold dropTrailWs
    rw [List.reverse_reverse]
    exact List.dropWhile_suffix jsWs
  exact (@List.reverse_suffix _ (dropTrailWs s) s).mp h

theorem dropLeadWs_suffix (s : List Char) : dropLeadWs s <:+ s :=
  List.dropWhile_suffix jsWs

theorem jsTrim_inf (s : List Char) : jsTrim s <:+: s :=
  List.IsInfix.trans (List.IsPrefix.isInfix (dropTrailWs_pre _))
    (List.IsSuffix.isInfix (dropLeadWs_suffix s))

theorem head?_of_prefix {α : Type} (l₁ l₂ : List α) (h : l₁ <+: l₂)
    (hne : l₁ ≠ []) : l₂.head? = l₁.head? := by
  obtain ⟨t, rfl⟩ := h
  cases l₁ with
  | nil => exact absurd rfl hne
  | cons a l => rfl

theorem dropWhile_head?_not (p : Char → Bool) (l : List Char) :
    ∀ c, (l.dropWhile p).head? = some c → p c = false := by
  induction l with
  | nil => intro c h; simp at h
  | cons a l ih =>
    intro c h
    by_cases hp : p a
    · rw [List.dropWhile_cons_of_pos hp] at h
      exact ih c h
    · rw [List.dropWhile_cons_of_neg hp] at h
      simp only [List.head?_cons, Option.some.injEq] at h
      subst h
      exact Bool.eq_false_iff.mpr hp

theorem jsTrim_reverse_eq (s : List Char) :
    (jsTrim s).reverse = (dropLeadWs s).reverse.dropWhile jsWs := by
  show (dropTrailWs (dropLeadWs s)).reverse = _
  unfold dropTrailWs
  rw [List.reverse_reverse]

theorem jsTrim_head?_not_ws (s : List Char) :
    ∀ c, (jsTrim s).head? = some c → jsWs c = false := by
  intro c h
  have hne : jsTrim s ≠ [] := by
    rintro hnil
    rw [hnil] at h
    simp at h
  have hpre : jsTrim s <+: dropLeadWs s := dropTrailWs_pre _
  have hh := head?_of_prefix _ _ hpre hne
  have h2 : (dropLeadWs s).head? = some c := by rw [hh]; exact h
  exact dropWhile_head?_not jsWs s c h2

theorem jsTrim_revHead?_not_ws (s : List Char) :
    ∀ c, (jsTrim s).reverse.head? = some c → jsWs c = false := by
  intro c h
  rw [jsTrim_reverse_eq] at h
  exact dropWhile_head?_not jsWs _ c h

theorem infix_dropWhile_of_head? (p : Char → Bool) (t s : List Char)
    (hne : t ≠ []) (hh : ∀ c, t.head? = some c → p c = false)
    (hinf : t <:+: s) : t <:+: s.dropWhile p := by
  obtain ⟨X, Y, rfl⟩ := hinf
  have hWpre : (X ++ t ++ Y).takeWhile p <+: X ++ t ++ Y := List.takeWhile_prefix p
  have hXpre : X <+: X ++ t ++ Y := by
    rw [List.append_assoc]
    exact List.prefix_append X (t ++ Y)
  have hsplit : (X ++ t ++ Y).takeWhile p ++ (X ++ t ++ Y).dropWhile p
      = X ++ t ++ Y := List.takeWhile_append_dropWhile p _
  rcases le_or_lt ((X ++ t ++ Y).takeWhile p).length X.length with hle | hlt
  · -- the `p`-prefix ends inside `X`, so `t` survives in the remainder
    obtain ⟨X', hX'⟩ := List.prefix_of_prefix_length_le hWpre hXpre hle
    have h2 : X ++ t ++ Y = (X ++ t ++ Y).takeWhile p ++ (X' ++ (t ++ Y)) := by
      conv_lhs => rw [← hX']
      simp
    have hdrop : (X ++ t ++ Y).dropWhile p = X' ++ (t ++ Y) :=
      List.append_cancel_left (hsplit.trans h2)
    rw [hdrop]
    exact ⟨X', Y, by simp⟩
  · -- impossible: `t`'s head would sit inside the all-`p` prefix
    exfalso
    obtain ⟨W', hW'⟩ := List.prefix_of_prefix_length_le hXpre hWpre (Nat.le_of_lt hlt)
    cases t with
    | nil => exact hne rfl
    | cons t0 t' =>
      cases hW2 : W' with
      | nil =>
        rw [hW2, List.append_nil] at hW'
        rw [← hW'] at hlt
        exact Nat.lt_irrefl _ hlt
      | cons w0 W'' =>
        subst hW2
        have heq : (w0 :: W'') ++ (X ++ t0 :: t' ++ Y).dropWhile p
            = t0 :: (t' ++ Y) := by
          apply @List.append_cancel_left _ X _ _
          have h3 : (X ++ w0 :: W'') ++ (X ++ t0 :: t' ++ Y).dropWhile p
              = X ++ t0 :: t' ++ Y := by
            rw [hW']
            exact hsplit
          rw [← List.append_assoc]
          rw [h3]
          simp
        have ht0 : w0 = t0 := by
          have := congrArg List.head? heq
          simpa using this
        have hmem : w0 ∈ (X ++ t0 :: t' ++ Y).takeWhile p := by
          rw [← hW']
          exact List.mem_append_right X (by simp)
        have hpw := List.mem_takeWhile_imp hmem
        have := hh t0 (by simp)
        rw [← ht0] at this
        rw [this] at hpw
        cases hpw

theorem infix_jsTrim_of_infix (t s : List Char) (hne : t ≠ [])
    (hh : ∀ c, t.head? = some c → jsWs c = false)
    (hl : ∀ c, t.reverse.head? = some c → jsWs c = false)
    (hinf : t <:+: s) : t <:+: jsTrim s := by
  have h1 : t <:+: dropLeadWs s := infix_dropWhile_of_head? jsWs t s hne hh hinf
  have h2 : t.reverse <:+: (dropLeadWs s).reverse := List.reverse_infix.mpr h1
  have hner : t.reverse ≠ [] := by simpa using hne
  have h3 : t.reverse <:+: (dropLeadWs s).reverse.dropWhile jsWs :=
    infix_dropWhile_of_head? jsWs t.reverse (dropLeadWs s).reverse hner hl h2
  have h4 : t.reverse <:+: (jsTrim s).reverse := by
    rw [jsTrim_reverse_eq]
    exact h3
  exact List.reverse_infix.mp h4

/-! ### Paginator: reconstruction (C2) and budget (C5) -/

theorem pagLoop_ne_nil (B : Nat) :
    ∀ (paras : List (List Char)) (cur : List Char), cur ≠ [] →
      pagLoop B paras cur ≠ [] := by
  intro paras cur
  induction paras, cur using pagLoop.induct B with
  | case1 cur h => intro hc; exact absurd (List.length_eq_zero.mp h) hc
  | case2 cur h => intro hc; simp [pagLoop, h]
  | case3 para cur h hp => intro hc; exact absurd (List.length_eq_zero.mp h) hc
  | case4 para cur h hp => intro hc; exact absurd (List.length_eq_zero.mp h) hc
  | case5 para cur h hfit => intro hc; simp [pagLoop, h, hfit]
  | case6 para cur h hfit => intro hc; simp [pagLoop, h, hfit]
  | case7 para next rest cur h hlk ih =>
    intro hc; exact absurd (List.length_eq_zero.mp h) hc
  | case8 para next rest cur h hlk ih =>
    intro hc; exact absurd (List.length_eq_zero.mp h) hc
  | case9 para next rest cur h hfit hlk ih =>
    intro hc
    rw [pagLoop, if_neg h, if_pos hfit, if_pos hlk]
    exact ih (by simp)
  | case10 para next rest cur h hfit hlk ih =>
    intro hc
    rw [pagLoop, if_neg h, if_pos hfit, if_neg hlk]
    exact ih (by simp)
  | case11 para next rest cur h hfit ih1 ih2 =>
    intro hc
    rw [pagLoop, if_neg h, if_neg hfit]
    simp

theorem pagLoop_join (B : Nat) :
    ∀ (paras : List (List Char)) (cur : List Char),
      (∀ p ∈ paras, p ≠ []) → cur ≠ [] →
      joinPars (pagLoop B paras cur) = joinPars (cur :: paras) := by
  intro paras cur
  induction paras, cur using pagLoop.induct B with
  | case1 cur h => intro _ hc; exact absurd (List.length_eq_zero.mp h) hc
  | case2 cur h => intro _ hc; simp [pagLoop, h]
  | case3 para cur h hp => intro _ hc; exact absurd (List.length_eq_zero.mp h) hc
  | case4 para cur h hp => intro _ hc; exact absurd (List.length_eq_zero.mp h) hc
  | case5 para cur h hfit =>
    intro _ hc
    rw [pagLoop, if_neg h, if_pos hfit]
    rfl
  | case6 para cur h hfit =>
    intro hp hc
    have hpne : para ≠ [] := hp para (by simp)
    rw [pagLoop, if_neg h, if_neg hfit, if_neg (by simpa using hpne)]
  | case7 para next rest cur h hlk ih =>
    intro _ hc; exact absurd (List.length_eq_zero.mp h) hc
  | case8 para next rest cur h hlk ih =>
    intro _ hc; exact absurd (List.length_eq_zero.mp h) hc
  | case9 para next rest cur h hfit hlk ih =>
    intro hp hc
    rw [pagLoop, if_neg h, if_pos hfit, if_pos hlk]
    rw [ih (fun p hmem => hp p (by simp [hmem])) (by simp)]
    rw [List.append_assoc]
    simp only [List.cons_append]
    rw [joinPars_append_sep, joinPars_append_sep]
    simp [joinPars]
  | case10 para next rest cur h hfit hlk ih =>
    intro hp hc
    rw [pagLoop, if_neg h, if_pos hfit, if_neg hlk]
    rw [ih (fun p hmem => hp p (by simp at hmem ⊢; tauto)) (by simp)]
    rw [joinPars_append_sep]
    simp [joinPars]
  | case11 para next rest cur h hfit ih1 ih2 =>
    intro hp hc
    have hpne : para ≠ [] := hp para (by simp)
    rw [pagLoop, if_neg h, if_neg hfit]
    by_cases hlk : isHeadingPara para = true ∧ next.length ≠ 0 ∧
        para.length + next.length + 2 ≤ B
    · rw [if_pos hlk]
      rw [joinPars_cons _ _ (pagLoop_ne_nil B _ _ (by simp))]
      rw [ih1 (fun p hmem => hp p (by simp [hmem])) (by simp)]
      rw [joinPars_append_sep]
      simp [joinPars]
    · rw [if_neg hlk]
      rw [joinPars_cons _ _ (pagLoop_ne_nil B _ _ hpne)]
      rw [ih2 (fun p hmem => hp p (by simp at hmem ⊢; tauto)) hpne]
      simp [joinPars]

theorem pagLoop_join_start (B : Nat) (paras : List (List Char))
    (hp : ∀ p ∈ paras, p ≠ []) :
    joinPars (pagLoop B paras []) = joinPars paras := by
  match paras with
  | [] => rfl
  | [para] =>
    have hpne : para ≠ [] := hp para (by simp)
    rw [pagLoop, if_pos (show ([] : List Char).length = 0 from rfl), if_neg (by simpa using hpne)]
  | para :: next :: rest =>
    by_cases hlk : isHeadingPara para = true ∧ next.length ≠ 0 ∧
        para.length + next.length + 2 ≤ B
    · rw [pagLoop, if_pos (show ([] : List Char).length = 0 from rfl), if_pos hlk]
      rw [pagLoop_join B rest _ (fun p hmem => hp p (by simp [hmem])) (by simp)]
      rw [joinPars_append_sep]
      simp [joinPars]
    · rw [pagLoop, if_pos (show ([] : List Char).length = 0 from rfl), if_neg hlk]
      exact pagLoop_join B (next :: rest) para
        (fun p hmem => hp p (by simp at hmem ⊢; tauto)) (hp para (by simp))

theorem pagLoop_mem (B : Nat) (paras0 : List (List Char)) :
    ∀ (paras : List (List Char)) (cur : List Char),
      (cur = [] ∨ cur.length ≤ B ∨ cur ∈ paras0) →
      (∀ p ∈ paras, p ∈ paras0) →
      ∀ q ∈ pagLoop B paras cur, q.length ≤ B ∨ q ∈ paras0 := by
  intro paras cur
  induction paras, cur using pagLoop.induct B with
  | case1 cur h => intro _ _ q hq; simp [pagLoop, h] at hq
  | case2 cur h =>
    intro hinv _ q hq
    simp only [pagLoop, if_neg h, List.mem_singleton] at hq
    subst hq
    rcases hinv with rfl | hinv
    · simp at h
    · exact hinv
  | case3 para cur h hp =>
    intro _ _ q hq
    simp [pagLoop, h, hp] at hq
  | case4 para cur h hp =>
    intro _ hmem q hq
    simp only [pagLoop, if_pos h, if_neg hp, List.mem_singleton] at hq
    subst hq
    exact Or.inr (hmem q (by simp))
  | case5 para cur h hfit =>
    intro _ _ q hq
    simp only [pagLoop, if_neg h, if_pos hfit, List.mem_singleton] at hq
    subst hq
    left
    simp only [List.length_append, List.length_cons]
    omega
  | case6 para cur h hfit =>
    intro hinv hmem q hq
    simp only [pagLoop, if_neg h, if_neg hfit, List.mem_cons] at hq
    rcases hq with rfl | hq
    · rcases hinv with rfl | hinv
      · simp at h
      · exact hinv
    · rcases Decidable.em (para.length = 0) with hp | hp
      · simp [hp] at hq
      · simp only [if_neg hp, List.mem_singleton] at hq
        subst hq
        exact Or.inr (hmem q (by simp))
  | case7 para next rest cur h hlk ih =>
    intro _ hmem q hq
    rw [pagLoop, if_pos h, if_pos hlk] at hq
    refine ih ?_ (fun p hp => hmem p (by simp [hp])) q hq
    right; left
    simp only [List.length_append, List.length_cons]
    omega
  | case8 para next rest cur h hlk ih =>
    intro _ hmem q hq
    rw [pagLoop, if_pos h, if_neg hlk] at hq
    refine ih ?_ (fun p hp => hmem p (by simp at hp ⊢; tauto)) q hq
    right; right
    exact hmem para (by simp)
  | case9 para next rest cur h hfit hlk ih =>
    intro _ hmem q hq
    rw [pagLoop, if_neg h, if_pos hfit, if_pos hlk] at hq
    refine ih ?_ (fun p hp => hmem p (by simp [hp])) q hq
    right; left
    rcases hlk with ⟨-, -, hlen⟩
    simp only [List.length_append, List.length_cons] at hlen ⊢
    omega
  | case10 para next rest cur h hfit hlk ih =>
    intro _ hmem q hq
    rw [pagLoop, if_neg h, if_pos hfit, if_neg hlk] at hq
    refine ih ?_ (fun p hp => hmem p (by simp at hp ⊢; tauto)) q hq
    right; left
    simp only [List.length_append, List.length_cons]
    omega
  | case11 para next rest cur h hfit ih1 ih2 =>
    intro hinv hmem q hq
    rw [pagLoop, if_neg h, if_neg hfit] at hq
    by_cases hlk : isHeadingPara para = true ∧ next.length ≠ 0 ∧
        para.length + next.length + 2 ≤ B
    · rw [if_pos hlk] at hq
      rcases List.mem_cons.mp hq with rfl | hq'
      · rcases hinv with rfl | hinv
        · simp at h
        · exact hinv
      · refine ih1 ?_ (fun p hp => hmem p (by simp [hp])) q hq'
        right; left
        rcases hlk with ⟨-, -, hlen⟩
        simpa using hlen
    · rw [if_neg hlk] at hq
      rcases List.mem_cons.mp hq with rfl | hq'
      · rcases hinv with rfl | hinv
        · simp at h
        · exact hinv
      · refine ih2 ?_ (fun p hp => hmem p (by simp at hp ⊢; tauto)) q hq'
        right; right
        exact hmem para (by simp)

theorem paginateContent_join (content : List Char) (B : Nat)
    (hp : ∀ p ∈ splitPars content, p ≠ []) :
    joinPars (paginateContent content B) = content := by
  unfold paginateContent
  split
  · rfl
  · rw [pagLoop_join_start B _ hp, joinPars_splitPars]

/-- **Claim C2, counterexample.**  With the text `"a\n\n\n\nb"` (whose middle
paragraph is empty) and the positive budget 1, the loop drops the empty
paragraph: joining the returned pages gives `"a\n\nb"`, not the input. -/
theorem claim_C2_counterexample :
    0 < 1 ∧
      joinPars (paginateContent "a\n\n\n\nb".data 1) ≠ "a\n\n\n\nb".data :=
  ⟨Nat.one_pos, by decide⟩

/-- **Claim C2, amended.**  For every input text whose paragraph split
contains no empty paragraph (no leading/trailing `"\n\n"` and no
`"\n\n\n\n"`), and every positive character budget, joining the pages
returned by `paginateContent` with `"\n\n"` reconstructs the input
exactly. -/
theorem claim_C2_amended (content : List Char) (B : Nat) (hB : 0 < B)
    (hp : ∀ p ∈ splitPars content, p ≠ []) :
    joinPars (paginateContent content B) = content :=
  paginateContent_join content B hp

theorem claim_C2_witness :
    (0 < 4 ∧ ∀ p ∈ splitPars "ab\n\ncd\n\nef".data, p ≠ []) ∧
      joinPars (paginateContent "ab\n\ncd\n\nef".data 4) = "ab\n\ncd\n\nef".data :=
  ⟨⟨by decide, by decide⟩, claim_C2_amended _ 4 (by decide) (by decide)⟩

/-- **Claim C5.**  For every input text and positive budget `B`, every page
returned by `paginateContent` either has length at most `B` or is one of the
input's paragraphs placed whole (which covers the oversized-single-paragraph
case; the heading-lookahead only ever extends a page within budget). -/
theorem claim_C5 (content : List Char) (B : Nat) (q : List Char)
    (hB : 0 < B) (hq : q ∈ paginateContent content B) :
    q.length ≤ B ∨ q ∈ splitPars content := by
  unfold paginateContent at hq
  split at hq
  · rename_i hle
    rw [List.mem_singleton] at hq
    subst hq
    exact Or.inl hle
  · exact pagLoop_mem B (splitPars content) (splitPars content) []
      (Or.inl rfl) (fun p hp => hp) q hq

theorem claim_C5_witness :
    (0 < 4 ∧ "aaaaaa".data ∈ paginateContent "aaaaaa".data 4) ∧
      ("aaaaaa".data.length ≤ 4 ∨ "aaaaaa".data ∈ splitPars "aaaaaa".data) :=
  ⟨⟨by decide, by decide⟩, claim_C5 _ 4 _ (by decide) (by decide)⟩

/-! ### MarkdownSynthesizer: page coverage (C1) -/

theorem lastEndOf_le_emitReach :
    ∀ (ss : List FlatSec) (le : Nat), lastEndOf ss le ≤ emitReach ss le := by
  intro ss
  induction ss with
  | nil => intro le; exact Nat.le_refl _
  | cons s rest ih =>
    intro le
    show lastEndOf rest s.endPage ≤ _
    exact Nat.le_trans (ih s.endPage) (Nat.le_max_right _ _)

theorem mem_emitLoop :
    ∀ (ss : List FlatSec) (le p : Nat), le < p → p ≤ emitReach ss le →
      MdChunk.pageRef p ∈ emitLoop ss le := by
  intro ss
  induction ss with
  | nil =>
    intro le p hlt hle
    exact absurd (Nat.lt_of_lt_of_le hlt hle) (Nat.lt_irrefl _)
  | cons s rest ih =>
    intro le p hlt hle
    show MdChunk.pageRef p ∈ gapChunks le s.startPage ++ secChunks s ++ emitLoop rest s.endPage
    rcases le_or_lt p (max (max le (s.startPage - 1)) s.endPage) with hcase | hcase
    · -- covered by the gap or by the section's own page range
      rcases lt_or_le p s.startPage with hps | hps
      · -- gap page
        have hgap : s.startPage > le + 1 := by omega
        apply List.mem_append_left
        apply List.mem_append_left
        unfold gapChunks
        rw [if_pos hgap]
        refine List.mem_map_of_mem MdChunk.pageRef ?_
        rw [List.mem_range'_1]
        omega
      · -- section page
        have hpe : p ≤ s.endPage := by omega
        apply List.mem_append_left
        apply List.mem_append_right
        unfold secChunks
        apply List.mem_cons_of_mem
        refine List.mem_map_of_mem MdChunk.pageRef ?_
        rw [List.mem_range'_1]
        omega
    · -- covered by the rest of the loop
      apply List.mem_append_right
      refine ih s.endPage p (by omega) ?_
      have : emitReach (s :: rest) le
          = max (max (max le (s.startPage - 1)) s.endPage) (emitReach rest s.endPage) := rfl
      omega

theorem mem_emitChunks (N : Nat) (ss : List FlatSec) (p : Nat)
    (h1 : 1 ≤ p) (h2 : p ≤ N) :
    MdChunk.pageRef p ∈ emitChunks N ss := by
  unfold emitChunks
  by_cases hp : p ≤ emitReach ss 0
  · exact List.mem_append_left _ (mem_emitLoop ss 0 p (by omega) hp)
  · apply List.mem_append_right
    have hle : lastEndOf ss 0 ≤ emitReach ss 0 := lastEndOf_le_emitReach ss 0
    unfold trailChunks
    rw [if_pos (by omega)]
    refine List.mem_map_of_mem MdChunk.pageRef ?_
    rw [List.mem_range'_1]
    omega

theorem infix_joinPars_of_mem :
    ∀ (l : List (List Char)) (x : List Char), x ∈ l → x <:+: joinPars l := by
  intro l
  induction l with
  | nil => simp
  | cons a l ih =>
    intro x hx
    cases l with
    | nil =>
      simp only [List.mem_singleton, List.mem_cons, List.not_mem_nil,
        or_false] at hx
      subst hx
      exact List.infix_refl _
    | cons b l' =>
      rw [joinPars_cons _ _ (by simp)]
      rcases List.mem_cons.mp hx with rfl | hx'
      · exact List.IsPrefix.isInfix (List.prefix_append x _)
      · exact List.IsInfix.trans (ih x hx')
          (List.IsSuffix.isInfix ⟨a ++ ['\n', '\n'], by simp⟩)

/-- **Claim C1, counterexample.**  For the pages
`["alpha", "bravo", "charlie"]` and the nested outline
`[{A, page 1, level 0, children: [{A1, page 2, level 1}]}]`, both flattened
sections get `endPage = 3` (each has no next sibling), so pages 2 and 3 are
emitted under both headings: `"bravo"` occurs at two positions in the
synthesized body, not exactly once. -/
theorem claim_C1_counterexample :
    countOccur
        (convertToMarkdown ["alpha".data, "bravo".data, "charlie".data]
          (some [⟨"A".data, some 1, 0, [⟨"A1".data, some 2, 1, []⟩]⟩]))
        "bravo".data = 2 ∧ (2 : Nat) ≠ 1 := by
  constructor
  · have hf : flattenOutline 3 [⟨"A".data, some 1, 0, [⟨"A1".data, some 2, 1, []⟩]⟩]
        = [⟨"A".data, 0, 1, 3⟩, ⟨"A1".data, 1, 2, 3⟩] := by
      simp [flattenOutline, truthyPage]
    show countOccur (jsTrim _) _ = 2
    rw [show (["alpha".data, "bravo".data, "charlie".data] : List (List Char)).length = 3
      from rfl, hf]
    decide
  · decide

/-- **Claim C1, amended.**  For every list of page texts and every outline
shape, each page's non-whitespace content (its trimmed text, when nonempty)
appears **at least once** in the body synthesized by `convertToMarkdown` —
no page is dropped.  (It need not appear exactly once: overlapping flattened
sections, as in the counterexample, duplicate pages.) -/
theorem claim_C1_amended (pages : List (List Char))
    (outline : Option (List OutlineItem)) (p : Nat) (h1 : 1 ≤ p)
    (h2 : p ≤ pages.length) (h3 : jsTrim (pages.getD (p - 1) []) ≠ []) :
    jsTrim (pages.getD (p - 1) []) <:+: convertToMarkdown pages outline := by
  have hmemp : pages.getD (p - 1) [] ∈ pages := by
    have hlt : p - 1 < pages.length := by omega
    rw [List.getD_eq_getElem _ _ hlt]
    exact List.getElem_mem hlt
  match outline with
  | none =>
    show jsTrim (pages.getD (p - 1) []) <:+: joinPars pages
    exact List.IsInfix.trans (jsTrim_inf _) (infix_joinPars_of_mem pages _ hmemp)
  | some [] =>
    show jsTrim (pages.getD (p - 1) []) <:+: joinPars pages
    exact List.IsInfix.trans (jsTrim_inf _) (infix_joinPars_of_mem pages _ hmemp)
  | some (i :: is) =>
    show jsTrim (pages.getD (p - 1) []) <:+:
      jsTrim (((emitChunks pages.length
        (sortSections (flattenOutline pages.length (i :: is)))).map
          (renderChunk pages)).flatten)
    have hchunk : MdChunk.pageRef p ∈ emitChunks pages.length
        (sortSections (flattenOutline pages.length (i :: is))) :=
      mem_emitChunks _ _ p h1 h2
    have hrender : renderChunk pages (MdChunk.pageRef p)
        = pages.getD (p - 1) [] ++ ['\n', '\n'] := by
      simp only [renderChunk, if_pos h3]
    have hflat : renderChunk pages (MdChunk.pageRef p) <:+:
        ((emitChunks pages.length
          (sortSections (flattenOutline pages.length (i :: is)))).map
            (renderChunk pages)).flatten :=
      List.infix_of_mem_flatten (List.mem_map_of_mem _ hchunk)
    rw [hrender] at hflat
    have hinf : jsTrim (pages.getD (p - 1) []) <:+:
        ((emitChunks pages.length
          (sortSections (flattenOutline pages.length (i :: is)))).map
            (renderChunk pages)).flatten := by
      refine List.IsInfix.trans ?_ hflat
      exact List.IsInfix.trans (jsTrim_inf _)
        (List.IsPrefix.isInfix (List.prefix_append _ _))
    exact infix_jsTrim_of_infix _ _ h3 (jsTrim_head?_not_ws _)
      (jsTrim_revHead?_not_ws _) hinf

theorem claim_C1_witness :
    (1 ≤ 1 ∧ 1 ≤ (["hello".data] : List (List Char)).length ∧
        jsTrim ((["hello".data] : List (List Char)).getD 0 []) ≠ []) ∧
      jsTrim ((["hello".data] : List (List Char)).getD 0 []) <:+:
        convertToMarkdown ["hello".data] none :=
  ⟨⟨Nat.le_refl 1, by decide, by decide⟩,
    claim_C1_amended ["hello".data] none 1 (Nat.le_refl 1) (by decide) (by decide)⟩

/-! ### Outline flattening (C3) and the worked example (C4) -/

/-- **Claim C3, counterexample.**  For three pages and the nested outline
`[{A, page 1, level 0, children: [{A1, page 2, level 1}]}]`, the flattened
list in depth-first traversal order is `[A(start 1), A1(start 2)]`, so by the
claim `A.endPage` should be `2 - 1 = 1`; the code computes `endPage` from the
next *sibling* (here absent), giving `A.endPage = 3`. -/
theorem claim_C3_counterexample :
    (flattenOutline 3
        [⟨"A".data, some 1, 0, [⟨"A1".data, some 2, 1, []⟩]⟩]).map FlatSec.endPage
        = [3, 3] ∧
      (flattenOutline 3
        [⟨"A".data, some 1, 0, [⟨"A1".data, some 2, 1, []⟩]⟩]).map FlatSec.startPage
        = [1, 2] ∧
      (3 : Nat) ≠ 2 - 1 := by
  refine ⟨?_, ?_, by decide⟩ <;> simp [flattenOutline, truthyPage]

/-- **Claim C3, amended.**  Flattening emits, for every outline node with a
truthy resolved target page, a section whose `endPage` is the resolved page
of the node's **next sibling** minus 1 when that sibling exists and has a
truthy page, and the last page of the document otherwise (not the next
section in depth-first order); nodes without a resolved page are dropped but
their children are still traversed, children being appended right after
their parent in document order (`flattenSiblingSpec`). -/
theorem claim_C3_amended (numPages : Nat) (items : List OutlineItem) :
    flattenOutline numPages items = flattenSiblingSpec numPages items := by
  induction items using flattenOutline.induct numPages with
  | case1 => simp [flattenOutline, flattenSiblingSpec]
  | case2 item rest ihc ihr =>
    have hch : (if item.children.length ≠ 0 then
          flattenOutline numPages item.children else [])
        = flattenSiblingSpec numPages item.children := by
      by_cases hc : item.children.length ≠ 0
      · rw [if_pos hc]
        exact ihc hc
      · rw [if_neg hc]
        have hz : item.children = [] := List.length_eq_zero.mp (by omega)
        rw [hz]
        simp [flattenSiblingSpec]
    cases rest with
    | nil =>
      simp only [flattenOutline, flattenSiblingSpec]
      rw [hch]
      cases htp : truthyPage item.page <;> simp [sectionOf, htp]
    | cons next tail =>
      simp only [flattenOutline, flattenSiblingSpec]
      rw [hch, ihr]
      cases htp : truthyPage item.page <;>
        cases htn : truthyPage next.page <;>
          simp [flattenSiblingSpec, sectionOf, htp, htn]

/-! ### SearchEngine: maxResults (C6) and zero-width termination (C8) -/

theorem toLowerL_length (s : List Char) : (toLowerL s).length = s.length := by
  simp [toLowerL]

theorem idxOfFrom_spec (pat s : List Char) (start i : Nat)
    (h : idxOfFrom pat s start = some i) (hp : 0 < pat.length) :
    start ≤ i ∧ i + pat.length ≤ s.length := by
  unfold idxOfFrom at h
  rcases Option.map_eq_some'.mp h with ⟨j, hj, rfl⟩
  have hb := idxOfSeq_bound pat _ j hj
  rw [List.length_drop] at hb
  omega

theorem scanLitAux_isSome (markdown query : List Char) (cs : Bool)
    (mr : Option Nat) (ctx : Nat) (hq : 0 < query.length) :
    ∀ (fuel pos total : Nat), pos ≤ markdown.length →
      markdown.length + 1 - pos ≤ fuel →
      (scanLitAux markdown query cs mr ctx fuel pos total).isSome := by
  intro fuel
  induction fuel with
  | zero => intro pos total h1 h2; omega
  | succ f ih =>
    intro pos total h1 h2
    cases hidx : idxOfFrom (if cs then query else toLowerL query)
        (if cs then markdown else toLowerL markdown) pos with
    | none =>
      rw [scanLitAux, hidx]
      simp
    | some i =>
      have hlen : 0 < (if cs then query else toLowerL query).length := by
        cases cs <;> simpa [toLowerL_length] using hq
      have hspec := idxOfFrom_spec _ _ pos i hidx hlen
      have hqlen : (if cs then query else toLowerL query).length = query.length := by
        cases cs <;> simp [toLowerL_length]
      have hmlen : (if cs then markdown else toLowerL markdown).length
          = markdown.length := by
        cases cs <;> simp [toLowerL_length]
      rw [hqlen, hmlen] at hspec
      rw [scanLitAux, hidx]
      dsimp only
      split
      · simp
      · have hih := ih (i + query.length) (total + 1) (by omega) (by omega)
        cases hrec : scanLitAux markdown query cs mr ctx f
            (i + query.length) (total + 1) with
        | none => rw [hrec] at hih; simp at hih
        | some l => simp

theorem scanLitAux_limit_take (markdown query : List Char) (cs : Bool)
    (ctx k : Nat) (hk : 0 < k) :
    ∀ (fuel pos total : Nat) (ums : List MatchEntry),
      scanLitAux markdown query cs none ctx fuel pos total = some ums →
      scanLitAux markdown query cs (some k) ctx fuel pos total
        = some (ums.take (k - total)) := by
  intro fuel
  induction fuel with
  | zero => intro pos total ums h; exact absurd h (by rw [scanLitAux]; simp)
  | succ f ih =>
    intro pos total ums h
    cases hidx : idxOfFrom (if cs then query else toLowerL query)
        (if cs then markdown else toLowerL markdown) pos with
    | none =>
      rw [scanLitAux, hidx] at h
      simp only [Option.some.injEq] at h
      subst h
      rw [scanLitAux, hidx]
      simp
    | some i =>
      rw [scanLitAux, hidx] at h
      dsimp only at h
      rw [if_neg (by simp [truthyLimit])] at h
      rcases Option.map_eq_some'.mp h with ⟨ums', hrec, rfl⟩
      rw [scanLitAux, hidx]
      dsimp only
      by_cases hbreak : k ≤ total
      · rw [if_pos ⟨by cases k with | zero => omega | succ m => rfl,
          by simpa using hbreak⟩]
        have hz : k - total = 0 := by omega
        rw [hz]
        simp
      · rw [if_neg (fun hcon => hbreak (by simpa using hcon.2))]
        rw [ih _ _ _ hrec]
        have hkt : k - total = (k - (total + 1)) + 1 := by omega
        rw [hkt]
        simp

theorem groupIns_sum (gs : List (List Char × List MatchEntry))
    (sec : List Char) (m : MatchEntry) :
    ((groupIns gs sec m).map (fun g => g.2.length)).sum
      = ((gs.map (fun g => g.2.length)).sum) + 1 := by
  induction gs with
  | nil => simp [groupIns]
  | cons g rest ih =>
    obtain ⟨gk, gms⟩ := g
    rw [groupIns]
    by_cases hk : gk = sec
    · rw [if_pos hk]
      simp only [List.map_cons, List.sum_cons, List.length_append,
        List.length_singleton]
      omega
    · rw [if_neg hk]
      simp only [List.map_cons, List.sum_cons]
      rw [ih]
      omega

theorem groupFold_sum :
    ∀ (ms : List MatchEntry) (gs : List (List Char × List MatchEntry)),
      (((ms.foldl (fun gs m => groupIns gs m.sec m) gs)).map
        (fun g => g.2.length)).sum
      = (gs.map (fun g => g.2.length)).sum + ms.length := by
  intro ms
  induction ms with
  | nil => intro gs; simp
  | cons m ms ih =>
    intro gs
    rw [List.foldl_cons, ih, groupIns_sum]
    simp only [List.length_cons]
    omega

theorem groupBySection_sum (ms : List MatchEntry) :
    ((groupBySection ms).map (fun g => g.2.length)).sum = ms.length := by
  unfold groupBySection
  split
  · rename_i hz
    simp only [List.map_nil, List.sum_nil]
    omega
  · rw [groupFold_sum ms []]
    simp

/-- **Claim C6, counterexample.**  `maxResults = 0` is falsy in JavaScript
(`if (maxResults && …)`), so the limit is disabled: searching `"aa"` for
`"a"` with `maxResults = 0` returns 2 matches, not `min(0, 2) = 0`. -/
theorem claim_C6_counterexample :
    (searchPDFLit "aa".data "a".data true (some 0) 0).map
        (fun gs => (gs.map (fun g => g.2.length)).sum) = some 2 ∧
      (2 : Nat) ≠ min 0 2 :=
  ⟨by decide, by decide⟩

theorem regexScanAux_isSome (markdown : List Char)
    (exec : Nat → Option (Nat × List Char)) (mr : Option Nat) (ctx : Nat)
    (hspec : ExecSpec markdown exec) :
    ∀ (fuel li total : Nat), li ≤ markdown.length + 1 →
      markdown.length + 2 - li ≤ fuel →
      ∃ ms, regexScanAux markdown exec mr ctx fuel li total = some ms ∧
        ms.length ≤ markdown.length + 1 - li := by
  intro fuel
  induction fuel with
  | zero => intro li total h1 h2; exact absurd h2 (by omega)
  | succ f ih =>
    intro li total h1 h2
    rw [regexScanAux]
    cases hex : exec li with
    | none => exact ⟨[], rfl, by simp⟩
    | some im =>
      obtain ⟨i, mt⟩ := im
      obtain ⟨hli, hfit⟩ := hspec li i mt hex
      dsimp only
      split
      · exact ⟨[], rfl, by simp⟩
      · have hstep : li + 1 ≤ (if i = i + mt.length then i + mt.length + 1
            else i + mt.length) ∧
            (if i = i + mt.length then i + mt.length + 1 else i + mt.length)
              ≤ markdown.length + 1 := by
          by_cases hz : i = i + mt.length
          · rw [if_pos hz]
            omega
          · rw [if_neg hz]
            omega
        obtain ⟨ms', hms', hlen'⟩ := ih _ (total + 1) hstep.2 (by omega)
        refine ⟨mkRegexEntry markdown ctx i mt :: ms', ?_, ?_⟩
        · dsimp only
          rw [hms']
          rfl
        · simp only [List.length_cons]
          omega

/-- Under a positive limit `k` the regex scan returns exactly the first
`k - total` entries of the unlimited scan: the `totalMatches >= maxResults`
break truncates the same deterministic match sequence. -/
theorem regexScanAux_limit_take (markdown : List Char)
    (exec : Nat → Option (Nat × List Char)) (ctx k : Nat) (hk : 0 < k) :
    ∀ (fuel li total : Nat) (ums : List MatchEntry),
      regexScanAux markdown exec none ctx fuel li total = some ums →
      regexScanAux markdown exec (some k) ctx fuel li total
        = some (ums.take (k - total)) := by
  intro fuel
  induction fuel with
  | zero => intro li total ums h; exact absurd h (by rw [regexScanAux]; simp)
  | succ f ih =>
    intro li total ums h
    cases hex : exec li with
    | none =>
      rw [regexScanAux, hex] at h
      simp only [Option.some.injEq] at h
      subst h
      rw [regexScanAux, hex]
      simp
    | some im =>
      obtain ⟨i, mt⟩ := im
      rw [regexScanAux, hex] at h
      dsimp only at h
      rw [if_neg (by simp [truthyLimit])] at h
      rcases Option.map_eq_some'.mp h with ⟨ums', hrec, rfl⟩
      rw [regexScanAux, hex]
      dsimp only
      by_cases hbreak : k ≤ total
      · rw [if_pos ⟨by cases k with | zero => omega | succ m => rfl,
          by simpa using hbreak⟩]
        have hz : k - total = 0 := by omega
        rw [hz]
        simp
      · rw [if_neg (fun hcon => hbreak (by simpa using hcon.2))]
        rw [ih _ _ _ hrec]
        have hkt : k - total = (k - (total + 1)) + 1 := by omega
        rw [hkt]
        simp

/-- **Claim C6, amended.**  For every body and **positive** match-count
limit `k`, `searchPDF` returns exactly `min(k, totalMatches)` match entries
in total across all section groups, where `totalMatches` is the count of an
unlimited search; partial groups are still returned (the grouped result is
what is counted).  This holds on the literal path for every nonempty
literal query, and on the regex path for every engine `exec` satisfying
the `RegExp.exec` contract.  (A limit of 0 is falsy in JS and disables the
limit — counterexample; an empty literal query makes the unlimited literal
scan non-terminating, so its `totalMatches` is undefined.) -/
theorem claim_C6_amended (markdown query : List Char) (cs : Bool)
    (exec : Nat → Option (Nat × List Char)) (ctx k : Nat)
    (hq : 0 < query.length) (hspec : ExecSpec markdown exec) (hk : 0 < k) :
    (∃ gs ums,
      searchPDFLit markdown query cs (some k) ctx = some gs ∧
      searchLiteral markdown query cs none ctx = some ums ∧
      (gs.map (fun g => g.2.length)).sum = min k ums.length) ∧
    (∃ gs ums,
      searchPDFRegex markdown exec (some k) ctx = some gs ∧
      searchRegex markdown exec none ctx = some ums ∧
      (gs.map (fun g => g.2.length)).sum = min k ums.length) := by
  constructor
  · have hsome := scanLitAux_isSome markdown query cs none ctx hq
      (markdown.length + 1) 0 0 (by omega) (by omega)
    obtain ⟨ums, hums⟩ := Option.isSome_iff_exists.mp hsome
    have hlim := scanLitAux_limit_take markdown query cs ctx k hk
      (markdown.length + 1) 0 0 ums hums
    refine ⟨groupBySection (ums.take (k - 0)), ums, ?_, hums, ?_⟩
    · unfold searchPDFLit searchLiteral
      rw [hlim]
      rfl
    · rw [groupBySection_sum]
      simp only [Nat.sub_zero]
      rw [List.length_take]
  · obtain ⟨ums, hums, _⟩ := regexScanAux_isSome markdown exec none ctx hspec
      (markdown.length + 2) 0 0 (by omega) (by omega)
    have hlim := regexScanAux_limit_take markdown exec ctx k hk
      (markdown.length + 2) 0 0 ums hums
    refine ⟨groupBySection (ums.take (k - 0)), ums, ?_, hums, ?_⟩
    · unfold searchPDFRegex searchRegex
      rw [hlim]
      rfl
    · rw [groupBySection_sum]
      simp only [Nat.sub_zero]
      rw [List.length_take]

/-- Witness for amended C6 at concrete inputs: body `"aba"`, literal query
`"a"`, an everywhere-zero-width regex engine, and limit `k = 1`. -/
theorem claim_C6_witness :
    (0 < "a".data.length ∧
      ExecSpec "aba".data
        (fun li => if li ≤ 3 then some (li, ([] : List Char)) else none) ∧
      0 < 1) ∧
      ((∃ gs ums,
          searchPDFLit "aba".data "a".data true (some 1) 0 = some gs ∧
          searchLiteral "aba".data "a".data true none 0 = some ums ∧
          (gs.map (fun g => g.2.length)).sum = min 1 ums.length) ∧
        (∃ gs ums,
          searchPDFRegex "aba".data
              (fun li => if li ≤ 3 then some (li, ([] : List Char)) else none)
              (some 1) 0 = some gs ∧
          searchRegex "aba".data
              (fun li => if li ≤ 3 then some (li, ([] : List Char)) else none)
              none 0 = some ums ∧
          (gs.map (fun g => g.2.length)).sum = min 1 ums.length)) := by
  have hspec : ExecSpec "aba".data
      (fun li => if li ≤ 3 then some (li, ([] : List Char)) else none) := by
    intro li i mt h
    simp only at h
    split at h
    · rename_i hle
      simp only [Option.some.injEq, Prod.mk.injEq] at h
      obtain ⟨rfl, rfl⟩ := h
      exact ⟨Nat.le_refl _, by simpa using hle⟩
    · cases h
  exact ⟨⟨by decide, hspec, by decide⟩,
    claim_C6_amended "aba".data "a".data true _ 0 1 (by decide) hspec
      (by decide)⟩

/-- **Claim C8.**  For every body text and every `exec` satisfying the
JavaScript `RegExp.exec` contract (which admits zero-width matches at any
position), the regex scan of `searchPDF` terminates within `length + 2`
iterations — the forced one-position advance on zero-width matches makes
ic `lastIndex` strictly increase — and returns a finite match list of at most
`length + 1` entries. -/
theorem claim_C8 (markdown : List Char)
    (exec : Nat → Option (Nat × List Char)) (maxResults : Option Nat)
    (contextChars : Nat) (hspec : ExecSpec markdown exec) :
    ∃ ms, regexScanAux markdown exec maxResults contextChars
        (markdown.length + 2) 0 0 = some ms ∧
      ms.length ≤ markdown.length + 1 := by
  obtain ⟨ms, h1, h2⟩ := regexScanAux_isSome markdown exec maxResults
    contextChars hspec (markdown.length + 2) 0 0 (by omega) (by omega)
  exact ⟨ms, h1, by omega⟩

theorem claim_C8_witness :
    ExecSpec "abc".data
        (fun li => if li ≤ 3 then some (li, ([] : List Char)) else none) ∧
      ∃ ms, regexScanAux "abc".data
          (fun li => if li ≤ 3 then some (li, ([] : List Char)) else none)
          none 0 ("abc".data.length + 2) 0 0 = some ms ∧
        ms.length ≤ "abc".data.length + 1 := by
  have hspec : ExecSpec "abc".data
      (fun li => if li ≤ 3 then some (li, ([] : List Char)) else none) := by
    intro li i mt h
    simp only at h
    split at h
    · rename_i hle
      simp only [Option.some.injEq, Prod.mk.injEq] at h
      obtain ⟨rfl, rfl⟩ := h
      simp only [List.length_nil]
      constructor
      · exact Nat.le_refl _
      · simpa using hle
    · cases h
  exact ⟨hspec, claim_C8 "abc".data _ none 0 hspec⟩

/-! ### Section attribution for search matches (C7) -/

theorem splitCh_ne_nil (sep : Char) : ∀ (s : List Char), splitCh sep s ≠ [] := by
  intro s
  induction s with
  | nil => simp [splitCh]
  | cons c rest ih =>
    rw [splitCh]
    by_cases hc : c = sep
    · simp [hc]
    · rw [if_neg hc]
      cases hs : splitCh sep rest with
      | nil => simp
      | cons f fs => simp

theorem splitCh_append_cons (sep : Char) :
    ∀ (Z X : List Char), splitCh sep (Z ++ sep :: X)
      = splitCh sep Z ++ splitCh sep X := by
  intro Z X
  induction Z with
  | nil => simp [splitCh]
  | cons c Z' ih =>
    by_cases hc : c = sep
    · subst hc
      show splitCh c (c :: (Z' ++ c :: X)) = splitCh c (c :: Z') ++ splitCh c X
      rw [splitCh, if_pos rfl, ih, splitCh, if_pos rfl]
      rfl
    · show splitCh sep (c :: (Z' ++ sep :: X)) = splitCh sep (c :: Z') ++ splitCh sep X
      rw [splitCh, if_neg hc, ih]
      rw [splitCh, if_neg hc]
      cases hz : splitCh sep Z' with
      | nil => exact absurd hz (splitCh_ne_nil sep Z')
      | cons f fs => simp

theorem splitCh_no_sep (sep : Char) :
    ∀ (s : List Char), sep ∉ s → splitCh sep s = [s] := by
  intro s
  induction s with
  | nil => intro _; rfl
  | cons c rest ih =>
    intro hmem
    have hc : c ≠ sep := fun hc => hmem (by simp [hc])
    have hrest : sep ∉ rest := fun hr => hmem (by simp [hr])
    rw [splitCh, if_neg hc, ih hrest]

theorem matchHeading_nil : matchHeading [] = none := rfl

theorem isSome_omap {α β : Type} (f : α → β) (o : Option α) :
    (Option.map f o).isSome = o.isSome := by
  cases o <;> rfl

/-- Elements of the line split of a *prefix* of the line-terminated join of
`bs` are either empty or prefixes of elements of `bs`. -/
theorem splitCh_take_linesJoin :
    ∀ (bs : List (List Char)) (j : Nat) (e : List Char),
      (∀ b ∈ bs, '\n' ∉ b) →
      e ∈ splitCh '\n' (((bs.map (fun b => b ++ ['\n'])).flatten).take j) →
      e = [] ∨ ∃ b ∈ bs, e <+: b := by
  intro bs
  induction bs with
  | nil =>
    intro j e _ hmem
    simp only [List.map_nil, List.flatten_nil, List.take_nil] at hmem
    rw [show splitCh '\n' [] = [[]] from rfl] at hmem
    simp at hmem
    exact Or.inl hmem
  | cons b bs' ih =>
    intro j e hnl hmem
    simp only [List.map_cons, List.flatten_cons] at hmem
    rcases le_or_lt j b.length with hj | hj
    · -- the cut lands inside `b` (or at its very end, before its newline)
      have h1 : j - b.length = 0 := by omega
      have htake : ((b ++ ['\n']) ++ (bs'.map (fun b => b ++ ['\n'])).flatten).take j
          = b.take j := by
        rw [List.append_assoc, List.take_append_eq_append_take, h1]
        simp
      rw [htake] at hmem
      have hnlb : '\n' ∉ b.take j := fun hm =>
        hnl b (by simp) (List.mem_of_mem_take hm)
      rw [splitCh_no_sep _ _ hnlb] at hmem
      simp only [List.mem_singleton] at hmem
      subst hmem
      by_cases hz : b.take j = []
      · exact Or.inl hz
      · exact Or.inr ⟨b, by simp, List.take_prefix j b⟩
    · -- the cut lands past `b`'s newline
      have htake : ((b ++ ['\n']) ++ (bs'.map (fun b => b ++ ['\n'])).flatten).take j
          = b ++ '\n' :: ((bs'.map (fun b => b ++ ['\n'])).flatten).take
              (j - (b.length + 1)) := by
        have hlen : (b ++ ['\n']).length = b.length + 1 := by simp
        have hsplit : j = (b ++ ['\n']).length + (j - (b.length + 1)) := by
          simp only [hlen]
          omega
        rw [hsplit, List.take_append]
        simp
      rw [htake] at hmem
      rw [splitCh_append_cons] at hmem
      rcases List.mem_append.mp hmem with hmem1 | hmem2
      · rw [splitCh_no_sep _ _ (hnl b (by simp))] at hmem1
        simp only [List.mem_singleton] at hmem1
        subst hmem1
        exact Or.inr ⟨e, by simp, List.prefix_refl e⟩
      · rcases ih (j - (b.length + 1)) e (fun x hx => hnl x (by simp [hx])) hmem2 with
          hz | ⟨b', hb', hp⟩
        · exact Or.inl hz
        · exact Or.inr ⟨b', by simp [hb'], hp⟩

theorem takeWhile_append_of_lt {p : Char → Bool} :
    ∀ (u v : List Char), (u.takeWhile p).length < u.length →
      (u ++ v).takeWhile p = u.takeWhile p := by
  intro u v
  induction u with
  | nil => intro h; simp at h
  | cons a u' ih =>
    intro h
    by_cases hp : p a
    · rw [List.cons_append, List.takeWhile_cons_of_pos hp,
        List.takeWhile_cons_of_pos hp]
      rw [List.takeWhile_cons_of_pos hp] at h
      simp only [List.length_cons] at h
      rw [ih (by omega)]
    · rw [List.cons_append, List.takeWhile_cons_of_neg hp,
        List.takeWhile_cons_of_neg hp]

theorem takeWhile_append_all {p : Char → Bool} :
    ∀ (u v : List Char), (∀ c ∈ u, p c = true) →
      u.length ≤ ((u ++ v).takeWhile p).length := by
  intro u v
  induction u with
  | nil => intro _; simp
  | cons a u' ih =>
    intro hall
    rw [List.cons_append, List.takeWhile_cons_of_pos (hall a (by simp))]
    simp only [List.length_cons]
    have := ih (fun c hc => hall c (by simp [hc]))
    omega

theorem wsBack_spec (rest : List Char) :
    ∀ (m : Nat) (t : List Char), wsBack rest m = some t →
      ∃ j, 1 ≤ j ∧ j ≤ m ∧ t = rest.drop j ∧ t ≠ [] ∧
        (∀ c ∈ t, jsTerm c = false) := by
  intro m
  induction m with
  | zero => intro t h; exact absurd h (by simp [wsBack])
  | succ m' ih =>
    intro t h
    rw [wsBack] at h
    split at h
    · rename_i hcond
      obtain ⟨hne, hall⟩ := hcond
      simp only [Option.some.injEq] at h
      subst h
      refine ⟨m' + 1, by omega, Nat.le_refl _, rfl, hne, ?_⟩
      intro c hc
      have := List.all_eq_true.mp hall c hc
      simpa using this
    · obtain ⟨j, h1, h2, h3, h4, h5⟩ := ih t h
      exact ⟨j, h1, by omega, h3, h4, h5⟩

theorem wsBack_isSome (rest : List Char) :
    ∀ (m j : Nat), 1 ≤ j → j ≤ m → rest.drop j ≠ [] →
      (∀ c ∈ rest.drop j, jsTerm c = false) → (wsBack rest m).isSome := by
  intro m
  induction m with
  | zero => intro j h1 h2 _ _; omega
  | succ m' ih =>
    intro j h1 h2 hne hall
    rw [wsBack]
    split
    · simp
    · rename_i hcond
      rcases Nat.lt_or_ge j (m' + 1) with hj | hj
      · exact ih j h1 (by omega) hne hall
      · exfalso
        have hjm : j = m' + 1 := by omega
        subst hjm
        exact hcond ⟨hne, List.all_eq_true.mpr (fun c hc => by
          simpa using hall c hc)⟩

/-- A line with a heading-matching prefix is itself heading-matching,
provided the line contains no line terminators. -/
theorem matchHeading_extend (e b : List Char) (hpre : e <+: b)
    (hterm : ∀ c ∈ b, jsTerm c = false)
    (h : (matchHeading e).isSome) : (matchHeading b).isSome := by
  obtain ⟨ext, rfl⟩ := hpre
  simp only [matchHeading] at h
  by_cases hk : (e.takeWhile (· = '#')).length = 0
  · rw [if_pos hk] at h
    simp at h
  · rw [if_neg hk, isSome_omap] at h
    obtain ⟨t, ht⟩ := Option.isSome_iff_exists.mp h
    obtain ⟨j, hj1, hj2, hjt, hjne, hjterm⟩ := wsBack_spec _ _ _ ht
    have hjlt : j < (e.drop (e.takeWhile (· = '#')).length).length := by
      by_contra hge
      push_neg at hge
      exact hjne (hjt.trans (List.drop_eq_nil_of_le hge))
    have hklt : (e.takeWhile (· = '#')).length < e.length := by
      have h1 := List.length_drop ((e.takeWhile (· = '#')).length) e
      omega
    have hbtake : (e ++ ext).takeWhile (· = '#') = e.takeWhile (· = '#') :=
      takeWhile_append_of_lt e ext hklt
    have hbdrop : (e ++ ext).drop (e.takeWhile (· = '#')).length
        = e.drop (e.takeWhile (· = '#')).length ++ ext :=
      List.drop_append_of_le_length (Nat.le_of_lt hklt)
    have hwse : ∀ c ∈ (e.drop (e.takeWhile (· = '#')).length).take j,
        jsWs c = true := by
      intro c hc
      have heq : (e.drop (e.takeWhile (· = '#')).length).take j
          = ((e.drop (e.takeWhile (· = '#')).length).takeWhile jsWs).take j := by
        conv_lhs => rw [← List.takeWhile_append_dropWhile jsWs
          (e.drop (e.takeWhile (· = '#')).length)]
        rw [List.take_append_eq_append_take]
        have hz : j - ((e.drop (e.takeWhile (· = '#')).length).takeWhile jsWs).length
            = 0 := by omega
        rw [hz]
        simp
      rw [heq] at hc
      exact List.mem_takeWhile_imp (List.mem_of_mem_take hc)
    have hwsb : j ≤ (((e.drop (e.takeWhile (· = '#')).length) ++ ext).takeWhile
        jsWs).length := by
      have hsplitR : (e.drop (e.takeWhile (· = '#')).length) ++ ext
          = (e.drop (e.takeWhile (· = '#')).length).take j
            ++ ((e.drop (e.takeWhile (· = '#')).length).drop j ++ ext) := by
        rw [← List.append_assoc, List.take_append_drop]
      rw [hsplitR]
      have hlenj : ((e.drop (e.takeWhile (· = '#')).length).take j).length = j := by
        rw [List.length_take]
        omega
      have := @takeWhile_append_all jsWs
        ((e.drop (e.takeWhile (· = '#')).length).take j)
        ((e.drop (e.takeWhile (· = '#')).length).drop j ++ ext) hwse
      omega
    have hdne : (e.drop (e.takeWhile (· = '#')).length).drop j ≠ [] := by
      rw [← hjt]
      exact hjne
    have hsome : (wsBack ((e.drop (e.takeWhile (· = '#')).length) ++ ext)
        ((((e.drop (e.takeWhile (· = '#')).length) ++ ext).takeWhile
          jsWs).length)).isSome := by
      apply wsBack_isSome _ _ j hj1 hwsb
      · rw [List.drop_append_of_le_length (Nat.le_of_lt hjlt)]
        intro hnil
        exact hdne (List.append_eq_nil.mp hnil).1
      · intro c hc
        rw [List.drop_append_of_le_length (Nat.le_of_lt hjlt)] at hc
        rcases List.mem_append.mp hc with h1 | h2
        · exact hjterm c (by rw [hjt]; exact h1)
        · exact hterm c (List.mem_append_right e h2)
    simp only [matchHeading]
    rw [if_neg (by rw [hbtake]; exact hk)]
    rw [isSome_omap, hbtake, hbdrop]
    exact hsome

/-- **Claim C7, counterexample.**  In the body `"# A\nx\n# B\ny"` the
heading lines H1 = `"# A"` and H2 = `"# B"` start at positions 0 and 6, with
no heading line between them.  Offset 1 lies strictly between them, yet the
text before it is just `"#"`, whose single line matches no heading — the
match is attributed to the sentinel `"Document Start"`, not H1's title
`"A"`. -/
theorem claim_C7_counterexample :
    findSectionForPosition "# A\nx\n# B\ny".data 1 = "Document Start".data ∧
      "Document Start".data ≠ "A".data ∧ (0 : Nat) < 1 ∧ 1 < 6 := by
  refine ⟨by decide, by decide, by decide, by decide⟩

/-- **Claim C7, amended.**  Let the body be `A ++ H1 ++ "\n" ++ B ++ tail`,
where H1 is a heading line (no `'\n'` inside), `A` is empty or ends with a
newline, and `B` consists of complete lines `bs`, none of which is a heading
and none of which contains a line-terminator character.  Then every search
match at an offset from the **end of H1's line** up to the end of `B` (hence
in particular every offset strictly between H1's and a following heading
H2's line starts that is not inside H1's own line) is attributed to H1's
captured title; the original claim fails only for offsets inside H1's line
itself (counterexample).  A match with no heading line before it is
attributed to `"Document Start"` (the `none` branch of the definition). -/
theorem claim_C7_amended (A h1 tail : List Char) (bs : List (List Char))
    (k1 : Nat) (t1 : List Char) (j : Nat)
    (hA : A = [] ∨ ∃ A', A = A' ++ ['\n'])
    (hh1 : matchHeading h1 = some (k1, t1))
    (hh1nl : '\n' ∉ h1)
    (hbs : ∀ b ∈ bs, matchHeading b = none ∧ ∀ c ∈ b, jsTerm c = false)
    (hj : j ≤ ((bs.map (fun b => b ++ ['\n'])).flatten).length) :
    findSectionForPosition
        (A ++ (h1 ++ '\n' :: ((bs.map (fun b => b ++ ['\n'])).flatten ++ tail)))
        (A.length + h1.length + 1 + j) = t1 := by
  have hterm1 : ∀ b ∈ bs, '\n' ∉ b := by
    intro b hb hc
    have := (hbs b hb).2 '\n' hc
    simp [jsTerm] at this
  have htake : (A ++ (h1 ++ '\n' ::
        ((bs.map (fun b => b ++ ['\n'])).flatten ++ tail))).take
        (A.length + h1.length + 1 + j)
      = A ++ (h1 ++ '\n' :: ((bs.map (fun b => b ++ ['\n'])).flatten).take j) := by
    have e1 : A.length + h1.length + 1 + j = A.length + (h1.length + (j + 1)) := by
      omega
    rw [e1, List.take_append]
    congr 1
    rw [List.take_append]
    congr 1
    rw [List.take_succ_cons]
    congr 1
    rw [List.take_append_eq_append_take,
      show j - ((bs.map (fun b => b ++ ['\n'])).flatten).length = 0 from by omega]
    simp
  have hfs : ∀ (P : List (List Char)),
      ((P ++ ([h1] ++ splitCh '\n'
          (((bs.map (fun b => b ++ ['\n'])).flatten).take j))).reverse.findSome?
        (fun l => (matchHeading l).map (·.2))) = some t1 := by
    intro P
    rw [List.reverse_append, List.reverse_append]
    rw [List.findSome?_append, List.findSome?_append]
    have hnone : (splitCh '\n'
        (((bs.map (fun b => b ++ ['\n'])).flatten).take j)).reverse.findSome?
        (fun l => (matchHeading l).map (·.2)) = none := by
      rw [List.findSome?_eq_none]
      intro x hx
      rcases splitCh_take_linesJoin bs j x hterm1 (List.mem_reverse.mp hx) with
        rfl | ⟨b, hb, hpre⟩
      · rw [matchHeading_nil]
        rfl
      · have hn : matchHeading x = none := by
          by_contra hc
          have h2 := matchHeading_extend x b hpre ((hbs b hb).2)
            (Option.ne_none_iff_isSome.mp hc)
          rw [(hbs b hb).1] at h2
          simp at h2
        rw [hn]
        rfl
    rw [hnone]
    have hone : (([h1] : List (List Char)).reverse).findSome?
        (fun l => (matchHeading l).map (·.2)) = some t1 := by
      simp [List.findSome?_cons, hh1]
    rw [hone]
    rfl
  show (match (splitCh '\n' ((A ++ (h1 ++ '\n' ::
      ((bs.map (fun b => b ++ ['\n'])).flatten ++ tail))).take
        (A.length + h1.length + 1 + j))).reverse.findSome?
      (fun l => (matchHeading l).map (·.2)) with
    | some t => t
    | none => "Document Start".data) = t1
  rw [htake]
  rcases hA with rfl | ⟨A', rfl⟩
  · rw [List.nil_append, splitCh_append_cons, splitCh_no_sep '\n' h1 hh1nl]
    have h0 := hfs []
    rw [List.nil_append] at h0
    rw [h0]
  · rw [List.append_assoc, List.singleton_append, splitCh_append_cons,
      splitCh_append_cons, splitCh_no_sep '\n' h1 hh1nl]
    rw [hfs (splitCh '\n' A')]

theorem claim_C7_witness :
    ((([] : List Char) = [] ∨ ∃ A', ([] : List Char) = A' ++ ['\n']) ∧
      matchHeading "# T".data = some (1, "T".data) ∧
      '\n' ∉ "# T".data ∧
      (∀ b ∈ [("x".data : List Char)],
        matchHeading b = none ∧ ∀ c ∈ b, jsTerm c = false) ∧
      1 ≤ (([("x".data : List Char)].map (fun b => b ++ ['\n'])).flatten).length) ∧
      findSectionForPosition
        ([] ++ ("# T".data ++ '\n' ::
          (([("x".data : List Char)].map (fun b => b ++ ['\n'])).flatten ++ "# B\ny".data)))
        (([] : List Char).length + "# T".data.length + 1 + 1) = "T".data :=
  ⟨⟨Or.inl rfl, by decide, by decide, by decide, by decide⟩,
    claim_C7_amended [] "# T".data "# B\ny".data ["x".data] 1 "T".data 1
      (Or.inl rfl) (by decide) (by decide) (by decide) (by decide)⟩

/-! ### IdentifierAssigner / DocumentStore (C9) -/

theorem lookupId_map_epn (cfg : PathCfg) (reg : List (List Char × List Char))
    (k : List Char) :
    lookupId (reg.map (fun e => (e.1, epNormalize cfg e.2))) k
      = (lookupId reg k).map (epNormalize cfg) := by
  induction reg with
  | nil => rfl
  | cons e rest ih =>
    obtain ⟨k', v⟩ := e
    show lookupId ((k', epNormalize cfg v) :: _) k = _
    rw [lookupId, lookupId]
    by_cases hk : k' = k
    · rw [if_pos hk, if_pos hk]
      rfl
    · rw [if_neg hk, if_neg hk, ih]

theorem mapSet_lookup_self :
    ∀ (reg : List (List Char × List Char)) (k v : List Char),
      lookupId (mapSet reg k v) k = some v := by
  intro reg
  induction reg with
  | nil => intro k v; simp [mapSet, lookupId]
  | cons e rest ih =>
    intro k v
    obtain ⟨k', v'⟩ := e
    rw [mapSet]
    by_cases hk : k' = k
    · rw [if_pos hk, lookupId, if_pos rfl]
    · rw [if_neg hk, lookupId, if_neg hk, ih]

theorem mapSet_lookup_other :
    ∀ (reg : List (List Char × List Char)) (k v k' : List Char), k' ≠ k →
      lookupId (mapSet reg k v) k' = lookupId reg k' := by
  intro reg
  induction reg with
  | nil =>
    intro k v k' hne
    show (if k = k' then some v else lookupId [] k') = lookupId [] k'
    rw [if_neg (fun h => hne h.symm)]
  | cons e rest ih =>
    intro k v k' hne
    obtain ⟨k0, v0⟩ := e
    rw [mapSet]
    by_cases hk : k0 = k
    · subst hk
      rw [if_pos rfl]
      show (if k0 = k' then some v else lookupId rest k')
          = (if k0 = k' then some v0 else lookupId rest k')
      rw [if_neg (fun h => hne h.symm), if_neg (fun h => hne h.symm)]
    · rw [if_neg hk]
      show (if k0 = k' then some v0 else lookupId (mapSet rest k v) k')
          = (if k0 = k' then some v0 else lookupId rest k')
      by_cases hk' : k0 = k'
      · rw [if_pos hk', if_pos hk']
      · rw [if_neg hk', if_neg hk', ih _ _ _ hne]

theorem mapSet_mapSet :
    ∀ (reg : List (List Char × List Char)) (k v v' : List Char),
      mapSet (mapSet reg k v) k v' = mapSet reg k v' := by
  intro reg
  induction reg with
  | nil => intro k v v'; simp [mapSet]
  | cons e rest ih =>
    intro k v v'
    obtain ⟨k0, v0⟩ := e
    rw [mapSet]
    by_cases hk : k0 = k
    · rw [if_pos hk, mapSet, if_pos rfl, mapSet, if_pos hk]
    · rw [if_neg hk, mapSet, if_neg hk, mapSet, if_neg hk, ih]

theorem partsOf_snd (cfg : PathCfg) (loc : List Char) :
    (partsOf cfg loc).2 = epNormalize cfg loc := by
  unfold partsOf epNormalize
  by_cases hu : isUrlPath loc
  · rw [if_pos hu, if_pos hu]
    cases cfg.urlPath loc <;> rfl
  · rw [if_neg hu, if_neg hu]

theorem joinCh_length_lt (sep : Char) :
    ∀ (xs ys : List (List Char)), xs ≠ [] → ys ≠ [] →
      (joinCh sep ys).length < (joinCh sep (xs ++ ys)).length := by
  intro xs
  induction xs with
  | nil => intro ys h _; exact absurd rfl h
  | cons x xs' ih =>
    intro ys _ hys
    cases hx : xs' with
    | nil =>
      cases ys with
      | nil => exact absurd rfl hys
      | cons y ys' =>
        show (joinCh sep (y :: ys')).length < (x ++ sep :: joinCh sep (y :: ys')).length
        simp only [List.length_append, List.length_cons]
        omega
    | cons x2 xs'' =>
      have h1 := ih ys (by simp [hx]) hys
      rw [← hx]
      have hne : xs' ++ ys ≠ [] := by
        rw [hx]
        simp
      have hstep : joinCh sep ((x :: xs') ++ ys) = x ++ sep :: joinCh sep (xs' ++ ys) := by
        rw [List.cons_append]
        cases hxy : xs' ++ ys with
        | nil => exact absurd hxy hne
        | cons a l => rfl
      rw [hstep]
      simp only [List.length_append, List.length_cons]
      omega

theorem candAt_length_lt (sep : Char) (parts : List (List Char)) (i j : Nat)
    (h1 : 1 ≤ i) (h2 : i < j) (h3 : j ≤ parts.length) :
    (candAt sep parts i).length < (candAt sep parts j).length := by
  unfold candAt
  have hsplit : parts.drop (parts.length - j)
      = (parts.drop (parts.length - j)).take ((parts.length - i) - (parts.length - j))
        ++ parts.drop (parts.length - i) := by
    have hdd : parts.drop (parts.length - i)
        = (parts.drop (parts.length - j)).drop
            ((parts.length - i) - (parts.length - j)) := by
      rw [List.drop_drop]
      congr 1
      omega
    rw [hdd]
    rw [List.take_append_drop]
  have hlen1 : ((parts.drop (parts.length - j)).take
      ((parts.length - i) - (parts.length - j))).length = j - i := by
    rw [List.length_take, List.length_drop]
    omega
  have hne1 : (parts.drop (parts.length - j)).take
      ((parts.length - i) - (parts.length - j)) ≠ [] := by
    intro hnil
    rw [hnil] at hlen1
    simp at hlen1
    omega
  have hne2 : parts.drop (parts.length - i) ≠ [] := by
    intro hnil
    have := congrArg List.length hnil
    rw [List.length_drop] at this
    simp at this
    omega
  calc (joinCh sep (parts.drop (parts.length - i))).length
      < (joinCh sep ((parts.drop (parts.length - j)).take
          ((parts.length - i) - (parts.length - j))
            ++ parts.drop (parts.length - i))).length :=
        joinCh_length_lt sep _ _ hne1 hne2
    _ = (joinCh sep (parts.drop (parts.length - j))).length := by rw [← hsplit]

theorem candAt_full (sep : Char) (parts : List (List Char)) :
    candAt sep parts parts.length = joinCh sep parts := by
  unfold candAt
  rw [Nat.sub_self]
  rfl

theorem findSome?_stable {α β : Type} (l : List α) (f g : α → Option β) (b : β)
    (hfg : ∀ x ∈ l, g x = f x ∨ g x = some b) :
    l.findSome? f = some b → l.findSome? g = some b := by
  induction l with
  | nil => intro h; simp at h
  | cons a l' ih =>
    intro h
    rw [List.findSome?_cons] at h
    rw [List.findSome?_cons]
    rcases hfg a (by simp) with hgeq | hgb
    · rw [hgeq]
      cases hfa : f a with
      | none =>
        rw [hfa] at h
        exact ih (fun x hx => hfg x (by simp [hx])) h
      | some v =>
        rw [hfa] at h
        exact h
    · rw [hgb]

theorem findSome?_of_none_or {α β : Type} (l : List α) (g : α → Option β) (b : β)
    (hall : ∀ x ∈ l, g x = none ∨ g x = some b)
    (hex : ∃ x ∈ l, g x = some b) : l.findSome? g = some b := by
  induction l with
  | nil => obtain ⟨x, hx, _⟩ := hex; simp at hx
  | cons a l' ih =>
    rw [List.findSome?_cons]
    rcases hall a (by simp) with hga | hga
    · rw [hga]
      show l'.findSome? g = some b
      apply ih (fun x hx => hall x (by simp [hx]))
      obtain ⟨x, hx, hgx⟩ := hex
      rcases List.mem_cons.mp hx with rfl | hx'
      · rw [hga] at hgx
        cases hgx
      · exact ⟨x, hx', hgx⟩
    · rw [hga]

/-- **Claim C9.**  Loading the same locator twice (the second load against
the registry produced by the first) yields the same id, and the registry is
unchanged by the second load — in particular its size does not grow.  The
path library (`path.normalize`, `path.sep`, `URL` parsing) is an arbitrary
`PathCfg`, so this holds for any normalization behaviour. -/
theorem claim_C9 (cfg : PathCfg) (reg : List (List Char × List Char))
    (loc : List Char) :
    (loadReg cfg (loadReg cfg reg loc).2 loc).1 = (loadReg cfg reg loc).1 ∧
      (loadReg cfg (loadReg cfg reg loc).2 loc).2.length
        = (loadReg cfg reg loc).2.length := by
  have hnp : epNormalize cfg loc = (partsOf cfg loc).2 := (partsOf_snd cfg loc).symm
  have hgen : generateUniqueId cfg
      (mapSet reg (generateUniqueId cfg reg loc) loc) loc
      = generateUniqueId cfg reg loc := by
    have hep1 : ∀ k,
        lookupId ((mapSet reg (generateUniqueId cfg reg loc) loc).map
          (fun e => (e.1, epNormalize cfg e.2))) k
        = if k = generateUniqueId cfg reg loc then some (partsOf cfg loc).2
          else lookupId (reg.map (fun e => (e.1, epNormalize cfg e.2))) k := by
      intro k
      rw [lookupId_map_epn]
      by_cases hk : k = generateUniqueId cfg reg loc
      · rw [if_pos hk, hk, mapSet_lookup_self]
        rw [Option.map_some', hnp]
      · rw [if_neg hk, mapSet_lookup_other _ _ _ _ hk, ← lookupId_map_epn]
    by_cases hlen : (partsOf cfg loc).1.length = 0
    · rw [generateUniqueId, if_pos hlen]
      conv_rhs => rw [generateUniqueId, if_pos hlen]
    · have hn1 : 1 ≤ (partsOf cfg loc).1.length := by omega
      by_cases hshort : lookupId (reg.map (fun e => (e.1, epNormalize cfg e.2)))
          ((partsOf cfg loc).1.getD ((partsOf cfg loc).1.length - 1) [])
          = some (partsOf cfg loc).2
      · -- first call reused the bare final segment
        have hg : generateUniqueId cfg reg loc
            = (partsOf cfg loc).1.getD ((partsOf cfg loc).1.length - 1) [] := by
          rw [generateUniqueId, if_neg hlen, if_pos hshort]
        rw [generateUniqueId, if_neg hlen,
          if_pos (by rw [hep1, if_pos hg.symm])]
        exact hg.symm
      · by_cases hlast : (partsOf cfg loc).1.getD ((partsOf cfg loc).1.length - 1) []
            = generateUniqueId cfg reg loc
        · -- the second call's shortcut hits the id assigned by the first call
          rw [generateUniqueId, if_neg hlen, if_pos (by rw [hep1, if_pos hlast])]
          exact hlast
        · -- shortcut fails again; the candidate loop re-finds the same id
          rw [generateUniqueId, if_neg hlen,
            if_neg (by rw [hep1, if_neg hlast]; exact hshort)]
          have hg : generateUniqueId cfg reg loc
              = match (List.range' 1 (partsOf cfg loc).1.length).findSome?
                  (genCand (fun k => lookupId
                      (reg.map (fun e => (e.1, epNormalize cfg e.2))) k)
                    (partsOf cfg loc).2 (sepOf cfg loc) (partsOf cfg loc).1) with
                | some c => c
                | none => joinCh (sepOf cfg loc) (partsOf cfg loc).1 := by
            rw [generateUniqueId, if_neg hlen, if_neg hshort]
          cases hfs : (List.range' 1 (partsOf cfg loc).1.length).findSome?
              (genCand (fun k => lookupId
                  (reg.map (fun e => (e.1, epNormalize cfg e.2))) k)
                (partsOf cfg loc).2 (sepOf cfg loc) (partsOf cfg loc).1) with
          | some c =>
            have hgc : generateUniqueId cfg reg loc = c := by rw [hg, hfs]
            have hstep : (List.range' 1 (partsOf cfg loc).1.length).findSome?
                (genCand (fun k => lookupId
                    ((mapSet reg (generateUniqueId cfg reg loc) loc).map
                      (fun e => (e.1, epNormalize cfg e.2))) k)
                  (partsOf cfg loc).2 (sepOf cfg loc) (partsOf cfg loc).1)
                = some (generateUniqueId cfg reg loc) := by
              apply findSome?_stable _ _ _ _ ?_ (by rw [hfs, hgc])
              intro i _
              by_cases hcand : candAt (sepOf cfg loc) (partsOf cfg loc).1 i
                  = generateUniqueId cfg reg loc
              · right
                simp only [genCand]
                rw [hep1, if_pos hcand]
                simp [hcand]
              · left
                simp only [genCand]
                rw [hep1, if_neg hcand]
            rw [hstep]
          | none =>
            have hgj : generateUniqueId cfg reg loc
                = joinCh (sepOf cfg loc) (partsOf cfg loc).1 := by rw [hg, hfs]
            have hcn : candAt (sepOf cfg loc) (partsOf cfg loc).1
                (partsOf cfg loc).1.length = generateUniqueId cfg reg loc := by
              rw [candAt_full, hgj]
            have hallnone := List.findSome?_eq_none.mp hfs
            have hstep : (List.range' 1 (partsOf cfg loc).1.length).findSome?
                (genCand (fun k => lookupId
                    ((mapSet reg (generateUniqueId cfg reg loc) loc).map
                      (fun e => (e.1, epNormalize cfg e.2))) k)
                  (partsOf cfg loc).2 (sepOf cfg loc) (partsOf cfg loc).1)
                = some (generateUniqueId cfg reg loc) := by
              apply findSome?_of_none_or
              · intro i hi
                by_cases hcand : candAt (sepOf cfg loc) (partsOf cfg loc).1 i
                    = generateUniqueId cfg reg loc
                · right
                  simp only [genCand]
                  rw [hep1, if_pos hcand]
                  simp [hcand]
                · left
                  simp only [genCand]
                  rw [hep1, if_neg hcand]
                  have hthis := hallnone i hi
                  simp only [genCand] at hthis
                  exact hthis
              · refine ⟨(partsOf cfg loc).1.length, ?_, ?_⟩
                · rw [List.mem_range'_1]
                  omega
                · simp only [genCand]
                  rw [hep1, if_pos hcn]
                  simp [hcn]
            rw [hstep]
  constructor
  · exact hgen
  · show (mapSet (mapSet reg (generateUniqueId cfg reg loc) loc)
        (generateUniqueId cfg (mapSet reg (generateUniqueId cfg reg loc) loc) loc)
        loc).length
      = (mapSet reg (generateUniqueId cfg reg loc) loc).length
    rw [hgen, mapSet_mapSet]

/-- **Claim C4, counterexample.**  With pages
`["Intro", "Ch1 body", "Ch2 body"]` and the two-entry top-level outline
(`hierarchyLevel 0`, as `processOutline` assigns to root entries), the
heading prefix is `'#'.repeat(level + 1) = "#"`, so the synthesized body is
not the claimed string with `"##"` headings. -/
theorem claim_C4_counterexample :
    convertToMarkdown ["Intro".data, "Ch1 body".data, "Ch2 body".data]
        (some [⟨"Chapter 1".data, some 2, 0, []⟩, ⟨"Chapter 2".data, some 3, 0, []⟩])
      ≠ "Intro\n\n## Chapter 1\n\nCh1 body\n\n## Chapter 2\n\nCh2 body".data := by
  have hf : flattenOutline 3
      [⟨"Chapter 1".data, some 2, 0, []⟩, ⟨"Chapter 2".data, some 3, 0, []⟩]
      = [⟨"Chapter 1".data, 0, 2, 2⟩, ⟨"Chapter 2".data, 0, 3, 3⟩] := by
    simp [flattenOutline, truthyPage]
  show jsTrim _ ≠ _
  rw [show (["Intro".data, "Ch1 body".data, "Ch2 body".data] : List (List Char)).length = 3
    from rfl, hf]
  decide

/-- **Claim C4, amended.**  For those pages and that outline the synthesized
body is exactly `"Intro\n\n# Chapter 1\n\nCh1 body\n\n# Chapter 2\n\nCh2
body"` — single-`#` headings, since the top-level entries have
`hierarchyLevel 0` and the heading depth is `level + 1`. -/
theorem claim_C4_amended :
    convertToMarkdown ["Intro".data, "Ch1 body".data, "Ch2 body".data]
        (some [⟨"Chapter 1".data, some 2, 0, []⟩, ⟨"Chapter 2".data, some 3, 0, []⟩])
      = "Intro\n\n# Chapter 1\n\nCh1 body\n\n# Chapter 2\n\nCh2 body".data := by
  have hf : flattenOutline 3
      [⟨"Chapter 1".data, some 2, 0, []⟩, ⟨"Chapter 2".data, some 3, 0, []⟩]
      = [⟨"Chapter 1".data, 0, 2, 2⟩, ⟨"Chapter 2".data, 0, 3, 3⟩] := by
    simp [flattenOutline, truthyPage]
  show jsTrim _ = _
  rw [show (["Intro".data, "Ch1 body".data, "Ch2 body".data] : List (List Char)).length = 3
    from rfl, hf]
  decide

/-- `Char.toLower` fixes every character outside the ASCII uppercase range
`[65, 90]`. -/
theorem toLower_fix (c : Char) (h : c.toNat < 65 ∨ 91 ≤ c.toNat) : c.toLower = c := by
  unfold Char.toLower
  rw [if_neg]
  omega

/-- JS whitespace is preserved by `toLowerCase`: no whitespace character is
an ASCII uppercase letter. -/
theorem jsWs_toLower (c : Char) (h : jsWs c = true) : jsWs c.toLower = true := by
  simp only [jsWs, Bool.or_eq_true, decide_eq_true_eq, Bool.and_eq_true] at h
  rcases h with (((((((((((((h|h)|h)|h)|h)|h)|h)|h)|hr)|h)|h)|h)|h)|h)|h
  all_goals try (subst h; decide)
  · obtain ⟨h1, h2⟩ := hr
    have hn : (' ' : Char).val.toNat ≤ c.val.toNat := h1
    have h8 : (' ' : Char).val.toNat = 8192 := by decide
    have h91 : 91 ≤ c.toNat := by
      show 91 ≤ c.val.toNat
      omega
    rw [toLower_fix c (Or.inr h91)]
    simp only [jsWs, Bool.or_eq_true, Bool.and_eq_true]
    exact Or.inl (Or.inl (Or.inl (Or.inl (Or.inl (Or.inl (Or.inr
      ⟨decide_eq_true h1, decide_eq_true h2⟩))))))

/-- A whitespace-only title normalizes (`toLowerCase().trim()`) to the empty
string. -/
theorem allWs_trim (q : List Char) (hq : ∀ c ∈ q, jsWs c = true) :
    jsTrim (toLowerL q) = [] := by
  have hall : ∀ c ∈ toLowerL q, jsWs c = true := by
    intro c hc
    obtain ⟨a, ha, rfl⟩ := List.mem_map.mp hc
    exact jsWs_toLower a (hq a ha)
  have hdrop : dropLeadWs (toLowerL q) = [] := by
    unfold dropLeadWs
    exact List.dropWhile_eq_nil_iff.mpr (fun x hx => hall x hx)
  unfold jsTrim
  rw [hdrop]
  rfl

/-- `String.prototype.includes` with an empty needle is always `true`. -/
theorem jsIncludes_nil (s : List Char) : jsIncludes s [] = true := by
  unfold jsIncludes
  rw [List.any_eq_true]
  exact ⟨0, List.mem_range.mpr (by omega), by cases s <;> rfl⟩

/-- Once `sectionStart`/`sectionLevel`/`matchedTitle` are set, the rest of
the `extractSection` scan never changes them (it only determines the break
index `sectionEnd`). -/
theorem scanSection_some_fst (nq : List Char) :
    ∀ (lines : List (List Char)) (i : Nat) (p : Nat × Nat × List Char),
      (scanSection nq lines i (some p)).1 = some p := by
  intro lines
  induction lines with
  | nil => intro i p; rfl
  | cons line rest ih =>
    intro i p
    obtain ⟨s, slvl, cap⟩ := p
    cases hm : matchHeading line with
    | some r =>
      obtain ⟨lvl, cap2⟩ := r
      simp only [scanSection, hm]
      by_cases hl : lvl ≤ slvl
      · rw [if_pos hl]
      · rw [if_neg hl]
        exact ih _ _
    | none =>
      simp only [scanSection, hm]
      exact ih _ _

/-- With an empty normalized query, the scan records the first heading line
of the body: `title.includes("")` is `true`, so the very first heading
matches. -/
theorem scanSection_nil_query :
    ∀ (lines : List (List Char)) (i : Nat) (cap : List Char),
      lines.findSome? (fun l => (matchHeading l).map (fun r => r.2))
        = some cap →
      ∃ s lvl, (scanSection [] lines i none).1 = some (s, lvl, cap) := by
  intro lines
  induction lines with
  | nil => intro i cap h; simp at h
  | cons line rest ih =>
    intro i cap h
    cases hm : matchHeading line with
    | some r =>
      obtain ⟨lvl, cap2⟩ := r
      simp only [List.findSome?_cons, hm, Option.map_some',
        Option.some.injEq] at h
      subst h
      simp only [scanSection, hm]
      rw [if_pos (show (jsIncludes (jsTrim (toLowerL cap2)) []
          || jsIncludes [] (jsTrim (toLowerL cap2))) = true by
        rw [jsIncludes_nil]
        exact Bool.true_or _)]
      exact ⟨i, lvl, scanSection_some_fst [] rest (i + 1) (i, lvl, cap2)⟩
    | none =>
      simp only [List.findSome?_cons, hm, Option.map_none'] at h
      simp only [scanSection, hm]
      exact ih (i + 1) cap h

/-- If the scanned text starts with a non-separator character (or the
accumulator is nonempty), the first field produced by the `split("\n\n")`
scan is nonempty. -/
theorem splitParsAux_head :
    ∀ (s acc : List Char),
      acc ≠ [] ∨ (∃ c t, s = c :: t ∧ c ≠ '\n') →
      ∃ p rest, splitParsAux s acc = p :: rest ∧ p ≠ [] := by
  intro s
  induction s with
  | nil =>
    intro acc h
    refine ⟨acc.reverse, [], rfl, ?_⟩
    rcases h with h | ⟨c, t, heq, _⟩
    · simpa using h
    · exact absurd heq (by simp)
  | cons c1 s2 ih =>
    intro acc h
    cases s2 with
    | nil =>
      exact ⟨(c1 :: acc).reverse, [], rfl, by simp⟩
    | cons c2 rest =>
      show ∃ p r,
        (if c1 = '\n' ∧ c2 = '\n' then
          acc.reverse :: splitParsAux rest []
        else splitParsAux (c2 :: rest) (c1 :: acc)) = p :: r ∧ p ≠ []
      by_cases hsep : c1 = '\n' ∧ c2 = '\n'
      · rw [if_pos hsep]
        rcases h with hacc | ⟨c, t, heq, hc⟩
        · exact ⟨acc.reverse, _, rfl, by simpa using hacc⟩
        · injection heq with h1 _
          have : c = '\n' := by rw [← h1]; exact hsep.1
          exact absurd this hc
      · rw [if_neg hsep]
        exact ih (c1 :: acc) (Or.inl (by simp))

/-- The paginator loop started on a nonempty first paragraph returns a
nonempty page list. -/
theorem pagLoop_cons_ne_nil (B : Nat) (p : List Char)
    (rest : List (List Char)) (hp : p ≠ []) :
    pagLoop B (p :: rest) [] ≠ [] := by
  cases rest with
  | nil =>
    simp only [pagLoop]
    rw [if_pos (show ([] : List Char).length = 0 from rfl),
      if_neg (fun h : p.length = 0 => hp (List.length_eq_zero.mp h))]
    simp
  | cons next rest2 =>
    simp only [pagLoop]
    rw [if_pos (show ([] : List Char).length = 0 from rfl)]
    by_cases hla : isHeadingPara p ∧ next.length ≠ 0 ∧
        p.length + next.length + 2 ≤ B
    · rw [if_pos hla]
      refine pagLoop_ne_nil B rest2 _ ?_
      intro hnil
      exact hp (List.append_eq_nil.mp hnil).1
    · rw [if_neg hla]
      exact pagLoop_ne_nil B (next :: rest2) p hp

/-- `paginateContent` of a trimmed text always returns at least one page:
within budget it returns the single page `[content]`, and over budget the
first `split("\n\n")` paragraph is nonempty (the trimmed text starts with
a non-whitespace character), so the loop emits at least one page. -/
theorem paginateContent_trim_ne_nil (x : List Char) (cpp : Nat) :
    paginateContent (jsTrim x) cpp ≠ [] := by
  unfold paginateContent
  by_cases hle : (jsTrim x).length ≤ cpp
  · rw [if_pos hle]
    simp
  · rw [if_neg hle]
    have hne : jsTrim x ≠ [] := by
      intro hnil
      rw [hnil] at hle
      exact hle (by simp)
    cases hx : jsTrim x with
    | nil => exact absurd hx hne
    | cons a t =>
      have hws : jsWs a = false := jsTrim_head?_not_ws x a (by rw [hx]; rfl)
      have han : a ≠ '\n' := by
        intro h
        rw [h] at hws
        exact absurd hws (by decide)
      obtain ⟨p, r, hsp, hp⟩ := splitParsAux_head (a :: t) []
        (Or.inr ⟨a, t, rfl, han⟩)
      show pagLoop cpp (splitPars (a :: t)) [] ≠ []
      unfold splitPars
      rw [hsp]
      exact pagLoop_cons_ne_nil cpp p r hp

/-- **Claim C10.**  On a body whose line list has a first heading (captured
title `cap`), `extractSection` called with a whitespace-only (or empty)
title and the default `page = 1`, `charsPerPage = 4000` does not fail:
the normalized query is the empty string, `title.includes("")` holds for
the first heading, and the scan records it, so the call returns `ok` with
`section` equal to that first heading title. -/
theorem claim_C10 (markdown q : List Char)
    (hq : ∀ c ∈ q, jsWs c = true) (cap : List Char)
    (hfirst : (splitCh '\n' markdown).findSome?
        (fun l => (matchHeading l).map (fun r => r.2)) = some cap) :
    ∃ sp, extractSectionBody markdown q 1 4000 = Except.ok sp ∧
      sp.sec = cap := by
  have hnq : jsTrim (toLowerL q) = [] := allWs_trim q hq
  obtain ⟨s, lvl, h1⟩ := scanSection_nil_query (splitCh '\n' markdown) 0 cap
    hfirst
  simp only [extractSectionBody]
  rw [hnq]
  cases hscan : scanSection [] (splitCh '\n' markdown) 0 none with
  | mk st e =>
    rw [hscan] at h1
    have h2 : st = some (s, lvl, cap) := h1
    subst h2
    dsimp only
    have hnp := paginateContent_trim_ne_nil
      (joinCh '\n' (((splitCh '\n' markdown).drop s).take (e - s))) 4000
    rw [if_neg (show ¬(1 < 1 ∨ 1 > (paginateContent
        (jsTrim (joinCh '\n' (((splitCh '\n' markdown).drop s).take (e - s))))
        4000).length) from by
      rintro (hlt | hgt)
      · exact absurd hlt (by omega)
      · have := List.length_pos.mpr hnp
        omega)]
    exact ⟨_, rfl, rfl⟩

/-- Witness for C10 at a concrete input: body `"# A\nbody"`, whitespace
title `" "`; the call succeeds and reports section `"A"`. -/
theorem claim_C10_witness :
    (∀ c ∈ (" ".data : List Char), jsWs c = true) ∧
      (splitCh '\n' "# A\nbody".data).findSome?
        (fun l => (matchHeading l).map (fun r => r.2)) = some "A".data ∧
      ∃ sp, extractSectionBody "# A\nbody".data " ".data 1 4000
          = Except.ok sp ∧ sp.sec = "A".data :=
  ⟨by decide, by decide, claim_C10 _ _ (by decide) _ (by decide)⟩


end PdfSplit
